import Mathlib

/-!
Verification of the fitness-coach prompt-chaining program (`src/app.py` and
`src/config/prompts.py`).

The development shallowly embeds the program's pure logic:

* a JSON value model (`Json`), with `json_dumps` embedding
  `json.dumps(v, ensure_ascii=False, indent=2)` and `json_loads` embedding
  `json.loads` (modelling boundaries: numbers are integers — float literals,
  `NaN`/`Infinity` and lone-surrogate escapes are treated as parse failures;
  whitespace sets are the ASCII ones);
* `fix_json`, the six-strategy repair ladder of `FitnessCoach.fix_json`;
* `extract_text_from_response`, embedding `_extract_text_from_response` over
  an explicit polymorphic response shape (Python attribute absence and
  attribute-access exceptions are both modelled as `Option.none`, Python
  truthiness as non-emptiness);
* `chain1_planning` / `chain2_execution`, embedding the pipeline's control
  flow; console printing is dropped, file writes are recorded as events, and
  raised exceptions become `Except.error` values.
-/

/-! ## Character and string helpers (Python `str` operations) -/

/-- The backtick character (code 96). -/
def btChar : Char := Char.ofNat 96

/-- ASCII whitespace as recognised by Python's `str.strip()` and the regex
class `\s` (the embedding models the ASCII subset of Unicode whitespace). -/
def pyWs (c : Char) : Bool :=
  c = ' ' || c = '\t' || c = '\n' || c = '\r' || c = '\x0b' || c = '\x0c'

/-- Drop trailing characters satisfying `p`. -/
def dropRightWhile (p : Char → Bool) (s : List Char) : List Char :=
  (s.reverse.dropWhile p).reverse

/-- Python `str.strip()` (ASCII whitespace). -/
def pyStrip (s : List Char) : List Char :=
  dropRightWhile pyWs (s.dropWhile pyWs)

/-- Python `str.rstrip()`. -/
def pyRstrip (s : List Char) : List Char :=
  dropRightWhile pyWs s

/-- `re.sub(r"^```(?:json)?\s*", "", s, flags=re.IGNORECASE)`: strip one
leading code fence, an optional case-insensitive `json` tag, and following
whitespace. -/
def stripFenceStart (s : List Char) : List Char :=
  if s.take 3 = [btChar, btChar, btChar] then
    let r := s.drop 3
    let r := if (r.take 4).map Char.toLower = ['j', 's', 'o', 'n'] then r.drop 4 else r
    r.dropWhile pyWs
  else s

/-- Does `s` end with the three-backtick fence? -/
def endsFence (s : List Char) : Bool :=
  (s.reverse.take 3) = [btChar, btChar, btChar]

/-- Does `s` end with a fence followed by one final newline?  (`$` in Python
`re` also matches just before a single trailing newline.) -/
def endsFenceNl (s : List Char) : Bool :=
  (s.reverse.take 4) = ['\n', btChar, btChar, btChar]

/-- `re.sub(r"\s*```$", "", s)`: remove a trailing fence and the whitespace
run before it; `$` also matches before one final newline. -/
def stripFenceEnd (s : List Char) : List Char :=
  if endsFence s then dropRightWhile pyWs (s.take (s.length - 3))
  else if endsFenceNl s then dropRightWhile pyWs (s.take (s.length - 4)) ++ ['\n']
  else s

/-- `re.sub(r"```$", "", s)`: remove just a trailing fence (`$` also matches
before one final newline). -/
def stripTicksEnd (s : List Char) : List Char :=
  if endsFence s then s.take (s.length - 3)
  else if endsFenceNl s then s.take (s.length - 4) ++ ['\n']
  else s

/-- The preprocessing performed at the top of `fix_json`:
`s = (json_str or "").strip()`, strip a leading fence, strip a trailing
fence, `s.strip()`. -/
def fixPreprocess (s : List Char) : List Char :=
  pyStrip (stripFenceEnd (stripFenceStart (pyStrip s)))

/-- Python `str.splitlines()` restricted to `\n`, `\r\n` and `\r`
terminators (the inputs of interest contain no other line boundaries). -/
def splitlinesPy : List Char → List Char → List (List Char)
  | cur, [] => if cur = [] then [] else [cur.reverse]
  | cur, '\n' :: rest => cur.reverse :: splitlinesPy [] rest
  | cur, '\r' :: '\n' :: rest => cur.reverse :: splitlinesPy [] rest
  | cur, '\r' :: rest => cur.reverse :: splitlinesPy [] rest
  | cur, c :: rest => splitlinesPy (c :: cur) rest

/-- Python `str.strip('\",')`: strip surrounding double-quote and comma
characters. -/
def stripQuoteComma (s : List Char) : List Char :=
  dropRightWhile (fun c => c = '"' || c = ',') (s.dropWhile (fun c => c = '"' || c = ','))

/-! ## The JSON value model -/

/-- JSON values as handled by the program.  Numbers are modelled as integers;
object member order is the encounter order (Python `dict`). -/
inductive Json where
  | null : Json
  | bool (b : Bool) : Json
  | num (n : Int) : Json
  | str (s : String) : Json
  | arr (elems : List Json) : Json
  | obj (members : List (String × Json)) : Json
deriving Repr

mutual

/-- Boolean equality on `Json`. -/
def beqJ (a b : Json) : Bool :=
  match a, b with
  | .null, .null => true
  | .bool x, .bool y => x = y
  | .num x, .num y => x = y
  | .str x, .str y => x = y
  | .arr xs, .arr ys => beqL xs ys
  | .obj xs, .obj ys => beqM xs ys
  | _, _ => false
termination_by sizeOf a

/-- Boolean equality on `Json` lists. -/
def beqL (a b : List Json) : Bool :=
  match a, b with
  | [], [] => true
  | x :: xs, y :: ys => beqJ x y && beqL xs ys
  | _, _ => false
termination_by sizeOf a

/-- Boolean equality on member lists. -/
def beqM (a b : List (String × Json)) : Bool :=
  match a, b with
  | [], [] => true
  | (k, v) :: xs, (k', v') :: ys => k = k' && beqJ v v' && beqM xs ys
  | _, _ => false
termination_by sizeOf a

end

mutual

/-- `beqJ` decides equality (support for the `DecidableEq` instance). -/
def beqJ_iff : ∀ (a b : Json), beqJ a b = true ↔ a = b
  | .null, b => by cases b <;> simp [beqJ]
  | .bool x, b => by cases b <;> simp [beqJ]
  | .num x, b => by cases b <;> simp [beqJ]
  | .str x, b => by cases b <;> simp [beqJ]
  | .arr xs, b => by
      cases b <;> simp [beqJ]
      exact beqL_iff xs _
  | .obj kvs, b => by
      cases b <;> simp [beqJ]
      exact beqM_iff kvs _

/-- `beqL` decides equality. -/
def beqL_iff : ∀ (a b : List Json), beqL a b = true ↔ a = b
  | [], b => by cases b <;> simp [beqL]
  | x :: xs, [] => by simp [beqL]
  | x :: xs, y :: ys => by
      simp [beqL, Bool.and_eq_true, beqJ_iff x y, beqL_iff xs ys]

/-- `beqM` decides equality. -/
def beqM_iff : ∀ (a b : List (String × Json)), beqM a b = true ↔ a = b
  | [], b => by cases b <;> simp [beqM]
  | x :: xs, [] => by simp [beqM]
  | (k, v) :: xs, (k', v') :: ys => by
      simp [beqM, Bool.and_eq_true, beqJ_iff v v', beqM_iff xs ys, and_assoc]

end

instance : DecidableEq Json := fun a b => decidable_of_iff _ (beqJ_iff a b)

/-! ## `json.dumps(v, ensure_ascii=False, indent=2)` -/

/-- Decimal digit character for `n < 10`. -/
def digitChar (n : Nat) : Char := Char.ofNat (48 + n)

/-- Decimal digits of a natural number, most significant first. -/
def natDigits (n : Nat) : List Char :=
  if h : n < 10 then [digitChar n]
  else natDigits (n / 10) ++ [digitChar (n % 10)]
decreasing_by exact Nat.div_lt_self (by omega) (by omega)

/-- Python `str(int)`. -/
def intChars (n : Int) : List Char :=
  if n < 0 then '-' :: natDigits n.natAbs else natDigits n.toNat

/-- Lower-case hex digit. -/
def hexDigit (n : Nat) : Char :=
  if n < 10 then Char.ofNat (48 + n) else Char.ofNat (87 + n)

/-- Four lower-case hex digits of `n < 0x10000` (`'\u%04x' % n`). -/
def hex4 (n : Nat) : List Char :=
  [hexDigit (n / 4096 % 16), hexDigit (n / 256 % 16), hexDigit (n / 16 % 16), hexDigit (n % 16)]

/-- JSON string-content escaping as performed by `json.dumps` with
`ensure_ascii=False`: escape `\"`, `\\`, the five short control escapes, and
other control characters as `\u00xx`; all other characters verbatim. -/
def escChar (c : Char) : List Char :=
  if c = '"' then ['\\', '"']
  else if c = '\\' then ['\\', '\\']
  else if c = '\n' then ['\\', 'n']
  else if c = '\t' then ['\\', 't']
  else if c = '\r' then ['\\', 'r']
  else if c = '\x08' then ['\\', 'b']
  else if c = '\x0c' then ['\\', 'f']
  else if c.toNat < 0x20 then '\\' :: 'u' :: hex4 c.toNat
  else [c]

/-- Escape a whole string's characters. -/
def escStr (s : List Char) : List Char :=
  s.flatMap escChar

/-- A serialized JSON string literal, quotes included. -/
def quoteStr (s : String) : List Char :=
  '"' :: escStr s.data ++ ['"']

/-- Indentation prefix at nesting level `lvl` for `indent=2`. -/
def ind2 (lvl : Nat) : List Char :=
  List.replicate (2 * lvl) ' '

mutual

/-- `json.dumps(v, ensure_ascii=False, indent=2)` at nesting level `lvl`,
producing the character list of the serialization. -/
def dVal (lvl : Nat) (v : Json) : List Char :=
  match v with
  | .null => ['\x6e', 'u', 'l', 'l']
  | .bool true => ['\x74', 'r', 'u', 'e']
  | .bool false => ['\x66', 'a', 'l', 's', 'e']
  | .num n => intChars n
  | .str s => quoteStr s
  | .arr [] => ['[', ']']
  | .arr (x :: xs) =>
      '[' :: '\n' :: dElems (lvl + 1) x xs ++ '\n' :: ind2 lvl ++ [']']
  | .obj [] => ['\x7b', '\x7d']
  | .obj ((k, w) :: kvs) =>
      '\x7b' :: '\n' :: dMembers (lvl + 1) k w kvs ++ '\n' :: ind2 lvl ++ ['\x7d']
termination_by sizeOf v

/-- The comma-and-newline separated array items, each on its own indented
line. -/
def dElems (lvl : Nat) (x : Json) (xs : List Json) : List Char :=
  match xs with
  | [] => ind2 lvl ++ dVal lvl x
  | y :: ys => ind2 lvl ++ dVal lvl x ++ ',' :: '\n' :: dElems lvl y ys
termination_by sizeOf x + sizeOf xs

/-- The comma-and-newline separated object members. -/
def dMembers (lvl : Nat) (k : String) (w : Json) (kvs : List (String × Json)) : List Char :=
  match kvs with
  | [] => ind2 lvl ++ quoteStr k ++ ':' :: ' ' :: dVal lvl w
  | (k', w') :: ps => ind2 lvl ++ quoteStr k ++ ':' :: ' ' :: dVal lvl w ++ ',' :: '\n' :: dMembers lvl k' w' ps
termination_by sizeOf w + sizeOf kvs

end

/-- `json.dumps(v, ensure_ascii=False, indent=2)`. -/
def json_dumps (v : Json) : String :=
  String.mk (dVal 0 v)

/-! ## `json.loads` -/

/-- JSON structural whitespace (`json.decoder`'s `WHITESPACE`). -/
def jsonWs (c : Char) : Bool :=
  c = ' ' || c = '\t' || c = '\n' || c = '\r'

/-- Value of a hex digit character, if it is one. -/
def hexVal (c : Char) : Option Nat :=
  if '0' ≤ c ∧ c ≤ '9' then some (c.toNat - 48)
  else if 'a' ≤ c ∧ c ≤ 'f' then some (c.toNat - 87)
  else if 'A' ≤ c ∧ c ≤ 'F' then some (c.toNat - 55)
  else none

/-- Value of a four-hex-digit escape. -/
def hex4Val (a b c d : Char) : Option Nat := do
  let a ← hexVal a
  let b ← hexVal b
  let c ← hexVal c
  let d ← hexVal d
  pure (a * 4096 + b * 256 + c * 16 + d)

/-- Decode one string escape character after the backslash; the simple
escapes of `json.decoder.BACKSLASH`. -/
def escCode (e : Char) : Option Char :=
  if e = '"' then some '"'
  else if e = '\\' then some '\\'
  else if e = '/' then some '/'
  else if e = 'b' then some '\x08'
  else if e = 'f' then some '\x0c'
  else if e = 'n' then some '\n'
  else if e = 'r' then some '\r'
  else if e = 't' then some '\t'
  else none

/-- Decode a `\\uXXXX` escape given its four hex digits and the remaining
input; a high surrogate consumes a following low-surrogate escape (as
`json.decoder` does).  Modelling boundary: a lone surrogate fails, since a
Lean `Char` holds only Unicode scalar values. -/
def pUEsc (a b c d : Char) (rest : List Char) : Option (Char × List Char) :=
  match hex4Val a b c d with
  | none => none
  | some n =>
    if n < 0xd800 then some (Char.ofNat n, rest)
    else if n < 0xdc00 then
      match rest with
      | '\\' :: 'u' :: a' :: b' :: c' :: d' :: rest2 =>
        (match hex4Val a' b' c' d' with
         | none => none
         | some m =>
           if 0xdc00 ≤ m ∧ m < 0xe000 then
             some (Char.ofNat (0x10000 + (n - 0xd800) * 0x400 + (m - 0xdc00)), rest2)
           else none)
      | _ => none
    else if n < 0xe000 then none
    else some (Char.ofNat n, rest)

/-- Decode one escape sequence after the backslash. -/
def pEsc (l : List Char) : Option (Char × List Char) :=
  match l with
  | [] => none
  | e :: rest =>
    if e = 'u' then
      match rest with
      | a :: b :: c :: d :: rest2 => pUEsc a b c d rest2
      | _ => none
    else
      match escCode e with
      | some d => some (d, rest)
      | none => none

set_option maxRecDepth 4000 in
/-- `pUEsc` only ever returns a suffix of its input (termination support). -/
def pUEsc_len : ∀ (a b c d : Char) (rest : List Char) (p : Char × List Char),
    pUEsc a b c d rest = some p → p.2.length ≤ rest.length := by
  intro a b c d rest p h
  unfold pUEsc at h
  split at h
  · exact absurd h (by simp)
  · split at h
    · cases h; simp
    · split at h
      · split at h
        · split at h
          · exact absurd h (by simp)
          · split at h
            · simp only [Option.some.injEq] at h
              rw [← h]
              simp only [List.length_cons]
              omega
            · exact absurd h (by simp)
        · exact absurd h (by simp)
      · split at h
        · exact absurd h (by simp)
        · cases h; simp

/-- `pEsc` consumes at least one character (termination support). -/
def pEsc_len : ∀ (l : List Char) (p : Char × List Char),
    pEsc l = some p → p.2.length < l.length := by
  intro l p h
  unfold pEsc at h
  split at h
  · exact absurd h (by simp)
  · rename_i e rest
    split at h
    · split at h
      · rename_i ha
        have hle := pUEsc_len _ _ _ _ _ _ h
        simp only [List.length_cons] at hle ⊢
        omega
      · exact absurd h (by simp)
    · split at h
      · cases h
        simp
      · exact absurd h (by simp)

/-- Parse the body of a JSON string literal (the opening quote already
consumed), accumulating characters in reverse; escapes follow
`json.decoder`, raw control characters are rejected (strict mode). -/
def pStrGo (acc : List Char) (l : List Char) : Option (String × List Char) :=
  match l with
  | [] => none
  | c :: rest =>
    if c = '"' then some (String.mk acc.reverse, rest)
    else if c = '\\' then
      match hp : pEsc rest with
      | some (d, rest2) => pStrGo (d :: acc) rest2
      | none => none
    else if c.toNat < 0x20 then none
    else pStrGo (c :: acc) rest
termination_by l.length
decreasing_by
  · have := pEsc_len rest (d, rest2) hp
    simp only [List.length_cons] at this ⊢
    omega
  · simp only [List.length_cons]
    omega

/-- Parse a JSON string literal after its opening quote. -/
def pStr (cs : List Char) : Option (String × List Char) :=
  pStrGo [] cs

/-- Numeric value of a digit run. -/
def digitsVal (ds : List Char) : Nat :=
  ds.foldl (fun a c => a * 10 + (c.toNat - 48)) 0

/-- Parse a JSON integer literal.  Modelling boundary: a literal continuing
with `.`, `e` or `E` (a float) fails, as do `NaN`/`Infinity`. -/
def pNum (cs : List Char) : Option (Int × List Char) :=
  let neg : Bool := cs.head? = some '-'
  let cs' := if neg then cs.tail else cs
  let ds := cs'.takeWhile Char.isDigit
  let rest := cs'.dropWhile Char.isDigit
  if ds = [] then none
  else if ds.head? = some '0' ∧ ds.length > 1 then none
  else if rest.head? = some '.' ∨ rest.head? = some 'e' ∨ rest.head? = some 'E' then none
  else some (if neg then -(digitsVal ds : Int) else (digitsVal ds : Int), rest)

/-- Python `dict` insertion: an existing key keeps its position and gets the
new value; a new key is appended. -/
def dictInsert (kvs : List (String × Json)) (k : String) (v : Json) : List (String × Json) :=
  if kvs.any (fun p => p.1 = k) then
    kvs.map (fun p => if p.1 = k then (k, v) else p)
  else kvs ++ [(k, v)]

mutual

/-- Parse one JSON value, skipping leading structural whitespace.  `fuel`
bounds the recursion depth; `json_loads` supplies enough for any input. -/
def pVal : Nat → List Char → Option (Json × List Char)
  | 0, _ => none
  | fuel + 1, cs =>
    match cs.dropWhile jsonWs with
    | [] => none
    | c :: rest =>
      if c = '\x7b' then
        match rest.dropWhile jsonWs with
        | [] => pMembers fuel [] rest
        | c2 :: r2 => if c2 = '\x7d' then some (Json.obj [], r2) else pMembers fuel [] rest
      else if c = '[' then
        match rest.dropWhile jsonWs with
        | [] => pElems fuel [] rest
        | c2 :: r2 => if c2 = ']' then some (Json.arr [], r2) else pElems fuel [] rest
      else if c = '"' then (pStr rest).map (fun p => (Json.str p.1, p.2))
      else if c = 't' then
        if rest.take 3 = ['r', 'u', 'e'] then some (Json.bool true, rest.drop 3) else none
      else if c = 'f' then
        if rest.take 4 = ['a', 'l', 's', 'e'] then some (Json.bool false, rest.drop 4) else none
      else if c = 'n' then
        if rest.take 3 = ['u', 'l', 'l'] then some (Json.null, rest.drop 3) else none
      else if c = '-' ∨ c.isDigit then
        (pNum (c :: rest)).map (fun p => (Json.num p.1, p.2))
      else none

/-- Parse the members of an object after its `{` (or after a `,`),
accumulating via Python-`dict` insertion. -/
def pMembers : Nat → List (String × Json) → List Char → Option (Json × List Char)
  | 0, _, _ => none
  | fuel + 1, acc, cs =>
    match cs.dropWhile jsonWs with
    | [] => none
    | c0 :: rest =>
      if c0 = '"' then
        match pStr rest with
        | none => none
        | some (k, r1) =>
          match r1.dropWhile jsonWs with
          | [] => none
          | c1 :: r2 =>
            if c1 = ':' then
              match pVal fuel r2 with
              | none => none
              | some (v, r3) =>
                match r3.dropWhile jsonWs with
                | [] => none
                | c3 :: r4 =>
                  if c3 = ',' then pMembers fuel (dictInsert acc k v) r4
                  else if c3 = '\x7d' then some (Json.obj (dictInsert acc k v), r4)
                  else none
            else none
      else none

/-- Parse the elements of an array after its `[` (or after a `,`). -/
def pElems : Nat → List Json → List Char → Option (Json × List Char)
  | 0, _, _ => none
  | fuel + 1, acc, cs =>
    match pVal fuel cs with
    | none => none
    | some (v, r1) =>
      match r1.dropWhile jsonWs with
      | [] => none
      | c1 :: r2 =>
        if c1 = ',' then pElems fuel (acc ++ [v]) r2
        else if c1 = ']' then some (Json.arr (acc ++ [v]), r2)
        else none

end

/-- `json.loads(s)`: parse one value surrounded only by whitespace. -/
def json_loads (s : String) : Option Json :=
  match pVal (s.length + 1) s.data with
  | some (v, rest) => if rest.dropWhile jsonWs = [] then some v else none
  | none => none

/-! ## `FitnessCoach.fix_json` -/

/-- The inner `close_open_quotes` helper: count double quotes preceded by an
even number of backslashes; if the count is odd, append one closing quote.
`bs` tracks the immediately preceding backslash run. -/
def countUnescapedQuotes (bs cnt : Nat) : List Char → Nat
  | [] => cnt
  | '"' :: rest => countUnescapedQuotes 0 (if bs % 2 = 0 then cnt + 1 else cnt) rest
  | '\\' :: rest => countUnescapedQuotes (bs + 1) cnt rest
  | _ :: rest => countUnescapedQuotes 0 cnt rest

/-- `close_open_quotes(text)` from `fix_json` strategy 3. -/
def closeOpenQuotes (text : List Char) : List Char :=
  if countUnescapedQuotes 0 0 text % 2 = 1 then text ++ ['"'] else text

/-- The strategy-2 depth scan: starting at the first `{` (depth 0 on entry),
return the offset of the `}` that brings the depth back to zero. -/
def findBraceEnd : List Char → Int → Nat → Option Nat
  | [], _, _ => none
  | c :: rest, depth, i =>
    if c = '\x7b' then findBraceEnd rest (depth + 1) (i + 1)
    else if c = '\x7d' then
      (if depth - 1 = 0 then some i else findBraceEnd rest (depth - 1) (i + 1))
    else findBraceEnd rest depth (i + 1)

/-- Worker for `stripTrailingCommas`; every step consumes at least one
character, so fuel `s.length + 1` always suffices and the `0` fallback is
never reached on the initial call. -/
def stripTCGo : Nat → List Char → List Char
  | _, [] => []
  | 0, s => s
  | fuel + 1, c :: rest =>
    if c = ',' then
      match rest.dropWhile pyWs with
      | b :: r2 =>
        if b = ']' ∨ b = '\x7d' then b :: stripTCGo fuel r2
        else c :: stripTCGo fuel rest
      | [] => c :: stripTCGo fuel rest
    else c :: stripTCGo fuel rest

/-- `re.sub(r",\s*(\]|\})", r"\1", s)`: remove every comma standing (up to
whitespace) right before a closing bracket or brace. -/
def stripTrailingCommas (s : List Char) : List Char :=
  stripTCGo (s.length + 1) s

/-- Strategy 1: direct parse of the preprocessed text, re-serialized. -/
def strategy1 (s : List Char) : Option String :=
  (json_loads (String.mk s)).map json_dumps

/-- Strategy 2: brace-balanced substring parse (the scan ignores string
context).  `tail` is the suffix of the preprocessed text from its first
`{`. -/
def strategy2 (tail : List Char) : Option String :=
  match findBraceEnd tail 0 0 with
  | none => none
  | some off => (json_loads (String.mk (tail.take (off + 1)))).map json_dumps

/-- Strategy 3: heuristic repair of the truncated suffix — strip a trailing
fence, right-strip, close an open quote, pad missing `}` (braces only), and
strip trailing commas. -/
def strategy3Candidate (tail : List Char) : List Char :=
  let c := pyRstrip (stripTicksEnd tail)
  let c := closeOpenQuotes c
  let opens := (c.filter (fun ch => ch = '\x7b')).length
  let closes := (c.filter (fun ch => ch = '\x7d')).length
  let c := if closes < opens then c ++ List.replicate (opens - closes) '\x7d' else c
  stripTrailingCommas c

/-- Strategy 3 as a recovery attempt. -/
def strategy3 (tail : List Char) : Option String :=
  (json_loads (String.mk (strategy3Candidate tail))).map json_dumps

/-- The line pipeline of strategy 4: non-empty trimmed lines, each trimmed
and stripped of surrounding quote/comma characters. -/
def salvageLines (inner : List Char) : List String :=
  ((splitlinesPy [] inner).filter (fun ln => pyStrip ln ≠ [])).map
    (fun ln => String.mk (stripQuoteComma (pyStrip ln)))

/-- The synthesized fallback object of strategy 4. -/
def fallbackObj (steps : List String) : Json :=
  Json.obj [("steps", Json.arr (steps.map Json.str)),
            ("assumptions", Json.arr []),
            ("success_criteria", Json.arr [])]

/-- Strategy 4: line-salvage fallback — strip fences again, drop a leading
`{`, keep the stripped lines longer than 10 characters as steps. -/
def strategy4 (s : List Char) : Option String :=
  let inner := pyStrip (stripFenceStart s)
  let inner := pyStrip (stripFenceEnd inner)
  let inner := if inner.head? = some '\x7b' then inner.tail else inner
  let steps := (salvageLines inner).filter (fun l => 10 < l.length)
  if steps ≠ [] then some (json_dumps (fallbackObj steps)) else none

/-- Index of the last `}` in `s`, if any. -/
def lastRBrace (s : List Char) : Option Nat :=
  (s.reverse.findIdx? (fun c => c = '\x7d')).map (fun j => s.length - 1 - j)

/-- Strategy 5: `re.search(r"(\{[\s\S]*\})", s)` — the greedy span from the
first `{` to the last `}`, directly parsed. -/
def strategy5 (s : List Char) : Option String :=
  let tail := s.dropWhile (fun c => c ≠ '\x7b')
  match tail, lastRBrace tail with
  | [], _ => none
  | _ :: _, none => none
  | _ :: _, some j =>
    if j = 0 then none
    else (json_loads (String.mk (tail.take (j + 1)))).map json_dumps

/-- Python `pat in s` for strings: contiguous-substring test. -/
def hasSubstr (pat : List Char) : List Char → Bool
  | [] => pat.isPrefixOf []
  | c :: rest => pat.isPrefixOf (c :: rest) || hasSubstr pat rest

/-- Strategy 6: if the text mentions `"steps"` but has no `{` at all, wrap
it in braces and parse. -/
def strategy6 (s : List Char) : Option String :=
  if hasSubstr ("\"steps\"".data) s ∧ ¬ s.any (fun c => c = '\x7b') then
    (json_loads (String.mk ('\x7b' :: s ++ ['\x7d']))).map json_dumps
  else none

/-- The `if start != -1:` block of `fix_json`: strategies 2 then 3, run only
when the text contains a `{`, on the suffix from the first `{`. -/
def strategy23 (s : List Char) : Option String :=
  if s.dropWhile (fun c => c ≠ '\x7b') = [] then none
  else (strategy2 (s.dropWhile (fun c => c ≠ '\x7b'))).orElse fun _ =>
    strategy3 (s.dropWhile (fun c => c ≠ '\x7b'))

/-- `FitnessCoach.fix_json`: preprocessing followed by the six recovery
strategies in order; strategies 2 and 3 run only when the text contains a
`{`.  All internal failures surface as `none`. -/
def fix_json (jsonStr : String) : Option String :=
  let s := fixPreprocess jsonStr.data
  (strategy1 s).orElse fun _ =>
  (strategy23 s).orElse fun _ =>
  (strategy4 s).orElse fun _ =>
  (strategy5 s).orElse fun _ =>
  strategy6 s

/-! ## `_extract_text_from_response`

The polymorphic response envelope is modelled as an explicit shape; a Python
attribute that is missing, `None`, or whose access raises is `none`, and
Python truthiness of an attribute value is non-emptiness. -/

/-- A part carrying optional text. -/
structure RespPart where
  text : Option String
deriving Repr, DecidableEq

/-- The `result` attribute: an object with an optional parts sequence. -/
structure RespResult where
  parts : Option (List RespPart)
deriving Repr, DecidableEq

/-- A candidate's `content` attribute. -/
structure RespContent where
  parts : Option (List RespPart)
deriving Repr, DecidableEq

/-- One entry of the `candidates` sequence. -/
structure RespCandidate where
  content : Option RespContent
  text : Option String
deriving Repr, DecidableEq

/-- The opaque completion-response envelope. -/
structure CompletionResponse where
  text : Option String
  result : Option RespResult
  candidates : Option (List RespCandidate)
deriving Repr, DecidableEq

/-- Python truthiness of an optional string attribute. -/
def truthyS : Option String → Bool
  | none => false
  | some s => !s.isEmpty

/-- Python truthiness of an optional list attribute. -/
def truthyParts : Option (List RespPart) → Bool
  | none => false
  | some l => !l.isEmpty

/-- Collect the truthy texts of a parts sequence, in order. -/
def collectParts (ps : List RespPart) : List String :=
  ps.filterMap (fun p => if truthyS p.text then p.text else none)

/-- Per-candidate contribution: prefer the content's parts when both are
truthy (even if no part then contributes), else fall back to the candidate's
own text. -/
def candTexts (c : RespCandidate) : List String :=
  match c.content with
  | some co =>
    if truthyParts co.parts then collectParts (co.parts.getD [])
    else if truthyS c.text then [c.text.getD ""] else []
  | none => if truthyS c.text then [c.text.getD ""] else []

/-- The `elif getattr(response, 'candidates', None):` branch. -/
def candidateParts (r : CompletionResponse) : List String :=
  match r.candidates with
  | some cands => if cands.isEmpty then [] else (cands.map candTexts).flatten
  | none => []

/-- `FitnessCoach._extract_text_from_response`. -/
def extract_text_from_response (r : CompletionResponse) : Option String :=
  if truthyS r.text then r.text
  else
    let parts : List String :=
      match r.result with
      | some res =>
        if truthyParts res.parts then collectParts (res.parts.getD [])
        else candidateParts r
      | none => candidateParts r
    if parts.isEmpty then none else some (String.intercalate "\n" parts)

/-! ## The pipeline stages

Console printing is dropped.  A raised exception is an `Except.error`; the
completion collaborator is an oracle argument (`Except Unit
CompletionResponse`, `.error` modelling a raising call); writes to
`last_raw_plan_response.txt` are recorded as attempt events, with the
`writeOk` flag telling whether the filesystem write would succeed — the code
swallows that outcome either way. -/

/-- The hard-failure kinds raised out of the two stages. -/
inductive PlanningError where
  | emptyOutput
  | repairParseFailed
  | repairFailed
  | modelError
deriving Repr, DecidableEq

/-- Observable outcome of `chain1_planning`. -/
structure Chain1Out where
  result : Except PlanningError Json
  prompt : String
  raw : Option String
  dumpAttempts : List String
  dumpsSucceeded : List Bool
  modelCalls : Nat
  loadsAttempts : List String
deriving Repr

/-- `PLANNING_PROMPT` from `config/prompts.py`. -/
def PLANNING_PROMPT : String :=
  "You are a fitness coach planning assistant. Based on the user's request (goals, constraints, equipment availability, time horizon, and fitness level), produce a clear actionable fitness plan.\n\nUser Request: {user_request}\n\nReturn a JSON object EXACTLY in the format below. Do not add extra explanation or commentary — JSON only.\n\n\x7b\n    \"steps\": [\n        \"Step 1 description\",\n        \"Step 2 description\",\n        \"Step 3 description\",\n        \"Step 4 description\"\n    ],\n    \"assumptions\": [\n        \"Assumption 1\",\n        \"Assumption 2\"\n    ],\n    \"success_criteria\": [\n        \"Success criterion 1\",\n        \"Success criterion 2\"\n    ]\n\x7d\n\nConstraints and guidance:\n- Provide 3-6 concise, actionable steps (e.g., warm-up, main workout blocks, cool-down, nutrition notes).\n- Include reasonable assumptions about equipment, current fitness level, and any medical constraints.\n- Make success criteria measurable (e.g., \"increase continuous running time to X minutes\", \"complete X reps with good form\").\n- Reply with JSON only.\n"

/-- `EXECUTION_PROMPT` from `config/prompts.py`. -/
def EXECUTION_PROMPT : String :=
  "You are a professional fitness coach assistant. Given the user request and the plan produced earlier, produce a final, user-facing fitness guide in Markdown.\n\nUser Request: {user_request}\n\nPlan:\n{plan}\n\nProduce a human-friendly Markdown document that includes:\n- A clear title\n- Short overview\n- Required setup or equipment (dumbbells, resistance bands, mat, running shoes, etc.)\n- Specific steps to execute (expand and make actionable the plan's steps, include sets, reps, durations, rest times)\n- Safety notes and assumptions\n- Progression options and measurable success criteria\n- Next Steps list (3 items)\n\nUse headings, bullet lists, and short paragraphs. Do not include raw JSON in the final output. The final reply should be in Markdown only.\n"

/-- The body of `chain1_planning` once `json_output` holds text `t`:
direct parse, else `fix_json` repair, with the debug-dump attempts of the
inner handlers and the re-raising outer handler. -/
def chain1Body (prompt t : String) (mc : Nat) (writeOk : Bool) : Chain1Out :=
  match json_loads t with
  | some plan =>
      { result := .ok plan, prompt, raw := some t, dumpAttempts := [],
        dumpsSucceeded := [], modelCalls := mc, loadsAttempts := [t] }
  | none =>
    match fix_json t with
    | some fixedTxt =>
      match json_loads fixedTxt with
      | some plan =>
          { result := .ok plan, prompt, raw := some t, dumpAttempts := [],
            dumpsSucceeded := [], modelCalls := mc, loadsAttempts := [t, fixedTxt] }
      | none =>
          { result := .error .repairParseFailed, prompt, raw := some t,
            dumpAttempts := [t, t], dumpsSucceeded := [writeOk, writeOk],
            modelCalls := mc, loadsAttempts := [t, fixedTxt] }
    | none =>
        { result := .error .repairFailed, prompt, raw := some t,
          dumpAttempts := [t, t], dumpsSucceeded := [writeOk, writeOk],
          modelCalls := mc, loadsAttempts := [t] }

/-- `FitnessCoach.chain1_planning`: the planning stage.  `mock` is
`_mock_response_text` (checked for truthiness), `model` the collaborator's
outcome, `writeOk` whether debug-dump writes would succeed. -/
def chain1_planning (mock : Option String) (model : Except Unit CompletionResponse)
    (userRequest : String) (writeOk : Bool) : Chain1Out :=
  let prompt := PLANNING_PROMPT.replace "{user_request}" userRequest
  if truthyS mock then chain1Body prompt (mock.getD "") 0 writeOk
  else
    match model with
    | .error _ =>
        { result := .error .modelError, prompt, raw := none, dumpAttempts := [""],
          dumpsSucceeded := [writeOk], modelCalls := 1, loadsAttempts := [] }
    | .ok resp =>
      match extract_text_from_response resp with
      | none =>
          { result := .error .emptyOutput, prompt, raw := none, dumpAttempts := [""],
            dumpsSucceeded := [writeOk], modelCalls := 1, loadsAttempts := [] }
      | some t => chain1Body prompt t 1 writeOk

/-- Observable outcome of `chain2_execution`. -/
structure Chain2Out where
  result : Except PlanningError String
  prompt : String
  planStr : String
  modelCalls : Nat
deriving Repr

/-- `FitnessCoach.chain2_execution`: the execution stage.  The prompt embeds
the serialized plan; the same `_mock_response_text` gate as in planning
precedes the collaborator call. -/
def chain2_execution (mock : Option String) (model : Except Unit CompletionResponse)
    (userRequest : String) (plan : Json) : Chain2Out :=
  let planStr := json_dumps plan
  let prompt := (EXECUTION_PROMPT.replace "{user_request}" userRequest).replace "{plan}" planStr
  if truthyS mock then
    { result := .ok (mock.getD ""), prompt, planStr, modelCalls := 0 }
  else
    match model with
    | .error _ => { result := .error .modelError, prompt, planStr, modelCalls := 1 }
    | .ok resp =>
      match extract_text_from_response resp with
      | none => { result := .error .emptyOutput, prompt, planStr, modelCalls := 1 }
      | some g => { result := .ok g, prompt, planStr, modelCalls := 1 }

/-- `FitnessCoach.generate`: planning then execution, failures propagating. -/
def generate (mock : Option String) (model1 model2 : Except Unit CompletionResponse)
    (userRequest : String) (writeOk : Bool) : Except PlanningError String :=
  match (chain1_planning mock model1 userRequest writeOk).result with
  | .error e => .error e
  | .ok plan => (chain2_execution mock model2 userRequest plan).result

/-! ## Specification-support definitions -/

mutual

/-- Well-formedness: object keys are duplicate-free at every level.  Parsed
values satisfy it, and on it serialization and parsing are inverse. -/
def wfJ : Json → Bool
  | .null => true
  | .bool _ => true
  | .num _ => true
  | .str _ => true
  | .arr xs => wfL xs
  | .obj kvs => wfM kvs
termination_by v => sizeOf v

/-- Well-formedness of an element list. -/
def wfL : List Json → Bool
  | [] => true
  | x :: xs => wfJ x && wfL xs
termination_by l => sizeOf l

/-- Well-formedness of a member list: the head key is fresh in the tail,
the head value and the tail are well-formed. -/
def wfM : List (String × Json) → Bool
  | [] => true
  | (k, v) :: kvs => kvs.all (fun p => p.1 ≠ k) && wfJ v && wfM kvs
termination_by l => sizeOf l

end

mutual

/-- Fuel needed by `pVal` to parse a serialization of `v`. -/
def sizeJ : Json → Nat
  | .null => 1
  | .bool _ => 1
  | .num _ => 1
  | .str _ => 1
  | .arr [] => 1
  | .arr (x :: xs) => 1 + sizeE x xs
  | .obj [] => 1
  | .obj ((_, w) :: kvs) => 1 + sizeM w kvs
termination_by v => sizeOf v

/-- Fuel needed by `pElems` for a non-empty element list. -/
def sizeE (x : Json) (xs : List Json) : Nat :=
  match xs with
  | [] => 1 + sizeJ x
  | y :: ys => 1 + sizeJ x + sizeE y ys
termination_by sizeOf x + sizeOf xs

/-- Fuel needed by `pMembers` for a non-empty member list. -/
def sizeM (w : Json) (kvs : List (String × Json)) : Nat :=
  match kvs with
  | [] => 1 + sizeJ w
  | (_, w') :: ps => 1 + sizeJ w + sizeM w' ps
termination_by sizeOf w + sizeOf kvs

end

/-- Does the text that follows a serialized number end it?  (The maximal
digit run must stop, and no float continuation may follow.) -/
def numStop : List Char → Bool
  | [] => true
  | c :: _ => !c.isDigit && c ≠ '.' && c ≠ 'e' && c ≠ 'E'

/-- An object of the Plan shape: `steps`, `assumptions`, `success_criteria`,
each a sequence of strings. -/
def planObj (steps assumptions criteria : List String) : Json :=
  Json.obj [("steps", Json.arr (steps.map Json.str)),
            ("assumptions", Json.arr (assumptions.map Json.str)),
            ("success_criteria", Json.arr (criteria.map Json.str))]

/-- No non-empty text anywhere in a candidate: its direct text and all its
content parts are absent or empty. -/
def candNoText (c : RespCandidate) : Bool :=
  !truthyS c.text &&
    (match c.content with
     | none => true
     | some co => (co.parts.getD []).all (fun p => !truthyS p.text))

/-- No non-empty text is derivable from the response: the direct text
attribute, the result parts and the candidates are all absent or empty. -/
def noDerivableText (r : CompletionResponse) : Bool :=
  !truthyS r.text &&
    (match r.result with
     | none => true
     | some res => (res.parts.getD []).all (fun p => !truthyS p.text)) &&
    (match r.candidates with
     | none => true
     | some cands => cands.all candNoText)

/-! # Theorems

## Basic character lemmas -/

theorem digitChar_toNat : ∀ d : Nat, d < 10 → (digitChar d).toNat = 48 + d := by decide

theorem digitChar_isDigit : ∀ d : Nat, d < 10 → (digitChar d).isDigit = true := by decide

theorem natDigits_all_digits : ∀ n : Nat, ∀ c ∈ natDigits n, c.isDigit = true := by
  intro n
  induction n using Nat.strong_induction_on with
  | _ n ih =>
    intro c hc
    rw [natDigits] at hc
    split at hc
    · rename_i h
      simp at hc
      subst hc
      exact digitChar_isDigit n h
    · rename_i h
      simp at hc
      rcases hc with hc | hc
      · exact ih (n / 10) (Nat.div_lt_self (by omega) (by omega)) c hc
      · subst hc
        exact digitChar_isDigit (n % 10) (Nat.mod_lt _ (by omega))

theorem natDigits_ne_nil (n : Nat) : natDigits n ≠ [] := by
  rw [natDigits]
  split <;> simp

theorem digitsVal_append_one (xs : List Char) (c : Char) :
    digitsVal (xs ++ [c]) = 10 * digitsVal xs + (c.toNat - 48) := by
  simp [digitsVal, List.foldl_append]
  omega

theorem digitsVal_natDigits : ∀ n : Nat, digitsVal (natDigits n) = n := by
  intro n
  induction n using Nat.strong_induction_on with
  | _ n ih =>
    rw [natDigits]
    split
    · rename_i h
      simp [digitsVal, digitChar_toNat n h]
    · rename_i h
      rw [digitsVal_append_one, ih (n / 10) (Nat.div_lt_self (by omega) (by omega)),
        digitChar_toNat (n % 10) (Nat.mod_lt _ (by omega))]
      omega

theorem natDigits_head_ne_zero : ∀ n : Nat, 1 ≤ n → (natDigits n).head? ≠ some '0' := by
  intro n
  induction n using Nat.strong_induction_on with
  | _ n ih =>
    intro hn
    rw [natDigits]
    split
    · rename_i h
      simp
      intro hc
      have h48 := congrArg Char.toNat hc
      rw [digitChar_toNat n h] at h48
      have h0 : ('0' : Char).toNat = 48 := by decide
      rw [h0] at h48
      omega
    · rename_i h
      have hne := natDigits_ne_nil (n / 10)
      have := ih (n / 10) (Nat.div_lt_self (by omega) (by omega)) (by omega)
      cases hd : natDigits (n / 10) with
      | nil => exact absurd hd hne
      | cons a t =>
        rw [hd] at this
        simpa using this

/-! ## Number parsing roundtrip -/

theorem takeWhile_natDigits (m : Nat) (rest : List Char) (h : numStop rest = true) :
    (natDigits m ++ rest).takeWhile Char.isDigit = natDigits m := by
  rw [List.takeWhile_append_of_pos (natDigits_all_digits m)]
  cases rest with
  | nil => simp
  | cons c t =>
    simp only [numStop, Bool.and_eq_true, Bool.not_eq_true'] at h
    simp [List.takeWhile, h.1.1.1]

theorem dropWhile_natDigits (m : Nat) (rest : List Char) (h : numStop rest = true) :
    (natDigits m ++ rest).dropWhile Char.isDigit = rest := by
  rw [List.dropWhile_append_of_pos (natDigits_all_digits m)]
  cases rest with
  | nil => simp
  | cons c t =>
    simp only [numStop, Bool.and_eq_true, Bool.not_eq_true'] at h
    simp [List.dropWhile, h.1.1.1]

theorem natDigits_head_ne_minus (m : Nat) :
    ((natDigits m ++ rest).head? = some '-') = False := by
  cases hd : natDigits m with
  | nil => exact absurd hd (natDigits_ne_nil m)
  | cons a t =>
    have ha : a.isDigit = true := by
      apply natDigits_all_digits m
      rw [hd]; exact List.mem_cons_self a t
    simp only [List.cons_append, List.head?_cons, eq_iff_iff, iff_false]
    intro hc
    have : a = '-' := by simpa using hc
    subst this
    simp [Char.isDigit] at ha

theorem leading_zero_check (m : Nat) :
    ((natDigits m).head? = some '0' ∧ (natDigits m).length > 1) = False := by
  simp only [eq_iff_iff, iff_false]
  rintro ⟨hz, hlen⟩
  by_cases h10 : m < 10
  · rw [natDigits, dif_pos h10] at hlen
    simp at hlen
  · have : 1 ≤ m := by omega
    exact natDigits_head_ne_zero m this hz

theorem pNum_digits (m : Nat) (rest : List Char) (h : numStop rest = true) :
    pNum (natDigits m ++ rest) = some ((m : Int), rest) := by
  have hneg : ((natDigits m ++ rest).head? = some '-') = False := natDigits_head_ne_minus m
  have hz : ((natDigits m).head? = some '0' ∧ (natDigits m).length > 1) = False :=
    leading_zero_check m
  have hfloat : (rest.head? = some '.' ∨ rest.head? = some 'e' ∨ rest.head? = some 'E') = False := by
    simp only [eq_iff_iff, iff_false]
    cases rest with
    | nil => simp
    | cons c t =>
      simp only [numStop, Bool.and_eq_true, Bool.not_eq_true'] at h
      simp only [List.head?_cons]
      push_neg
      obtain ⟨⟨⟨_, h1⟩, h2⟩, h3⟩ := h
      refine ⟨?_, ?_, ?_⟩ <;> intro hc <;> injection hc with hc <;> simp_all
  simp only [pNum, hneg, decide_False, Bool.false_eq_true, if_false,
    takeWhile_natDigits m rest h, dropWhile_natDigits m rest h, hz, hfloat,
    if_neg (natDigits_ne_nil m), digitsVal_natDigits]

theorem float_check (rest : List Char) (h : numStop rest = true) :
    (rest.head? = some '.' ∨ rest.head? = some 'e' ∨ rest.head? = some 'E') = False := by
  simp only [eq_iff_iff, iff_false]
  cases rest with
  | nil => simp
  | cons c t =>
    simp only [numStop, Bool.and_eq_true, Bool.not_eq_true'] at h
    simp only [List.head?_cons]
    push_neg
    obtain ⟨⟨⟨_, h1⟩, h2⟩, h3⟩ := h
    refine ⟨?_, ?_, ?_⟩ <;> intro hc <;> injection hc with hc <;> simp_all

theorem pNum_neg_digits (m : Nat) (rest : List Char) (h : numStop rest = true) :
    pNum ('-' :: (natDigits m ++ rest)) = some (-(m : Int), rest) := by
  simp only [pNum, List.head?_cons, List.tail_cons, eq_self_iff_true, decide_True,
    if_true, takeWhile_natDigits m rest h, dropWhile_natDigits m rest h,
    leading_zero_check m, float_check rest h,
    if_neg (natDigits_ne_nil m), digitsVal_natDigits, if_false]

theorem pNum_intChars (n : Int) (rest : List Char) (h : numStop rest = true) :
    pNum (intChars n ++ rest) = some (n, rest) := by
  by_cases hn : n < 0
  · rw [intChars, if_pos hn, List.cons_append, pNum_neg_digits n.natAbs rest h]
    congr 1
    congr 1
    omega
  · rw [intChars, if_neg hn, pNum_digits n.toNat rest h]
    congr 1
    congr 1
    omega

/-! ## String parsing roundtrip -/

theorem hexRound : ∀ n : Nat, n < 32 →
    hex4Val (hexDigit (n / 4096 % 16)) (hexDigit (n / 256 % 16))
      (hexDigit (n / 16 % 16)) (hexDigit (n % 16)) = some n := by decide

theorem pStrGo_quote (acc rest : List Char) :
    pStrGo acc ('"' :: rest) = some (String.mk acc.reverse, rest) := by
  rw [pStrGo]
  simp

theorem pStrGo_lit (acc : List Char) (c : Char) (rest : List Char)
    (h1 : c ≠ '"') (h2 : c ≠ '\\') (h3 : ¬ c.toNat < 0x20) :
    pStrGo acc (c :: rest) = pStrGo (c :: acc) rest := by
  rw [pStrGo]
  simp [h1, h2, h3]

theorem pEsc_simple (e d : Char) (rest : List Char)
    (h : escCode e = some d) (hu : e ≠ 'u') :
    pEsc (e :: rest) = some (d, rest) := by
  rw [pEsc.eq_def]
  simp only [if_neg hu, h]

theorem pEsc_u (n : Nat) (rest : List Char) (hn : n < 32) :
    pEsc ('u' :: (hex4 n ++ rest)) = some (Char.ofNat n, rest) := by
  rw [hex4]
  simp only [List.cons_append, List.nil_append]
  rw [pEsc]
  simp only [if_pos rfl]
  rw [pUEsc, hexRound n hn]
  simp [show n < 0xd800 by omega]

theorem pStrGo_esc (acc : List Char) (d : Char) (tail rest : List Char)
    (h : pEsc tail = some (d, rest)) :
    pStrGo acc ('\\' :: tail) = pStrGo (d :: acc) rest := by
  rw [pStrGo]
  simp only [if_neg (show ¬ ('\\' : Char) = '"' by decide)]
  rw [if_pos trivial]
  split
  · rename_i d2 rest2 heq
    rw [h] at heq
    simp only [Option.some.injEq, Prod.mk.injEq] at heq
    rw [heq.1, heq.2]
  · rename_i heq
    rw [h] at heq
    exact absurd heq (by simp)

theorem pStrGo_escStr (cs : List Char) : ∀ (acc rest : List Char),
    pStrGo acc (escStr cs ++ '"' :: rest) = some (String.mk (acc.reverse ++ cs), rest) := by
  induction cs with
  | nil =>
    intro acc rest
    show pStrGo acc (escStr [] ++ '"' :: rest) = _
    rw [show escStr [] = [] from rfl]
    rw [List.nil_append, pStrGo_quote]
    simp
  | cons c cs ih =>
    intro acc rest
    rw [show escStr (c :: cs) = escChar c ++ escStr cs by simp [escStr], List.append_assoc]
    by_cases h1 : c = '"'
    · subst h1
      rw [show escChar '"' = ['\\', '"'] from rfl]
      simp only [List.cons_append, List.nil_append]
      rw [pStrGo_esc acc '"' _ _ (pEsc_simple '"' '"' _ rfl (by decide)), ih]
      simp
    · by_cases h2 : c = '\\'
      · subst h2
        rw [show escChar '\\' = ['\\', '\\'] from rfl]
        simp only [List.cons_append, List.nil_append]
        rw [pStrGo_esc acc '\\' _ _ (pEsc_simple '\\' '\\' _ rfl (by decide)), ih]
        simp
      · by_cases h3 : c = '\n'
        · subst h3
          rw [show escChar '\n' = ['\\', 'n'] from rfl]
          simp only [List.cons_append, List.nil_append]
          rw [pStrGo_esc acc '\n' _ _ (pEsc_simple 'n' '\n' _ rfl (by decide)), ih]
          simp
        · by_cases h4 : c = '\t'
          · subst h4
            rw [show escChar '\t' = ['\\', 't'] from rfl]
            simp only [List.cons_append, List.nil_append]
            rw [pStrGo_esc acc '\t' _ _ (pEsc_simple 't' '\t' _ rfl (by decide)), ih]
            simp
          · by_cases h5 : c = '\r'
            · subst h5
              rw [show escChar '\r' = ['\\', 'r'] from rfl]
              simp only [List.cons_append, List.nil_append]
              rw [pStrGo_esc acc '\r' _ _ (pEsc_simple 'r' '\r' _ rfl (by decide)), ih]
              simp
            · by_cases h6 : c = '\x08'
              · subst h6
                rw [show escChar '\x08' = ['\\', 'b'] from rfl]
                simp only [List.cons_append, List.nil_append]
                rw [pStrGo_esc acc '\x08' _ _ (pEsc_simple 'b' '\x08' _ rfl (by decide)), ih]
                simp
              · by_cases h7 : c = '\x0c'
                · subst h7
                  rw [show escChar '\x0c' = ['\\', 'f'] from rfl]
                  simp only [List.cons_append, List.nil_append]
                  rw [pStrGo_esc acc '\x0c' _ _ (pEsc_simple 'f' '\x0c' _ rfl (by decide)), ih]
                  simp
                · by_cases h8 : c.toNat < 0x20
                  · rw [show escChar c = '\\' :: 'u' :: hex4 c.toNat by
                      rw [escChar]
                      simp only [if_neg h1, if_neg h2, if_neg h3, if_neg h4, if_neg h5,
                        if_neg h6, if_neg h7, if_pos h8]]
                    simp only [List.cons_append]
                    rw [pStrGo_esc acc _ _ _ (pEsc_u c.toNat _ (by omega)), Char.ofNat_toNat, ih]
                    simp
                  · rw [show escChar c = [c] by
                      rw [escChar]
                      simp only [if_neg h1, if_neg h2, if_neg h3, if_neg h4, if_neg h5,
                        if_neg h6, if_neg h7, if_neg h8]]
                    simp only [List.cons_append, List.nil_append]
                    rw [pStrGo_lit acc c _ h1 h2 h8, ih]
                    simp

theorem pStr_quote (s : String) (rest : List Char) :
    pStr (escStr s.data ++ '"' :: rest) = some (s, rest) := by
  rw [pStr, pStrGo_escStr]
  cases s
  simp

/-! ## Whitespace and head-character lemmas -/

theorem char_ne_of_toNat_ne (a b : Char) (h : a.toNat ≠ b.toNat) : a ≠ b :=
  fun he => h (he ▸ rfl)

theorem dropWhile_ws_replicate (n : Nat) (cs : List Char) :
    (List.replicate n ' ' ++ cs).dropWhile jsonWs = cs.dropWhile jsonWs := by
  apply List.dropWhile_append_of_pos
  intro a ha
  rw [List.eq_of_mem_replicate ha]
  rfl

theorem dropWhile_ws_ind2 (lvl : Nat) (cs : List Char) :
    (ind2 lvl ++ cs).dropWhile jsonWs = cs.dropWhile jsonWs :=
  dropWhile_ws_replicate (2 * lvl) cs

theorem dropWhile_ws_cons (c : Char) (cs : List Char) (h : jsonWs c = true) :
    (c :: cs).dropWhile jsonWs = cs.dropWhile jsonWs := by
  simp [List.dropWhile, h]

theorem dropWhile_ws_stop (c : Char) (cs : List Char) (h : jsonWs c = false) :
    (c :: cs).dropWhile jsonWs = c :: cs := by
  simp [List.dropWhile, h]

theorem isDigit_toNat (c : Char) (h : c.isDigit = true) :
    48 ≤ c.toNat ∧ c.toNat ≤ 57 := by
  simp only [Char.isDigit, Bool.and_eq_true, decide_eq_true_eq] at h
  obtain ⟨h1, h2⟩ := h
  exact ⟨h1, h2⟩

/-- The first character of a serialization: non-whitespace and never a
closing bracket or brace. -/
theorem dVal_head (lvl : Nat) (v : Json) :
    ∃ c t, dVal lvl v = c :: t ∧ jsonWs c = false ∧ c ≠ ']' ∧ c ≠ '\x7d' := by
  cases v with
  | null => exact ⟨'n', ['u', 'l', 'l'], by rw [dVal], by decide, by decide, by decide⟩
  | bool b =>
    cases b with
    | true => exact ⟨'t', ['r', 'u', 'e'], by rw [dVal], by decide, by decide, by decide⟩
    | false => exact ⟨'f', ['a', 'l', 's', 'e'], by rw [dVal], by decide, by decide, by decide⟩
  | num n =>
    by_cases hn : n < 0
    · refine ⟨'-', natDigits n.natAbs, ?_, by decide, by decide, by decide⟩
      rw [dVal, intChars, if_pos hn]
    · cases hd : natDigits n.toNat with
      | nil => exact absurd hd (natDigits_ne_nil _)
      | cons a t =>
        have ha : a.isDigit = true := by
          apply natDigits_all_digits n.toNat
          rw [hd]; exact List.mem_cons_self a t
        have hb := isDigit_toNat a ha
        refine ⟨a, t, ?_, ?_, ?_, ?_⟩
        · rw [dVal, intChars, if_neg hn, hd]
        · have hsp : a ≠ ' ' := char_ne_of_toNat_ne a _
            (by simp only [show (' ' : Char).toNat = 32 from rfl]; omega)
          have hta : a ≠ '\t' := char_ne_of_toNat_ne a _
            (by simp only [show ('\t' : Char).toNat = 9 from rfl]; omega)
          have hnl : a ≠ '\n' := char_ne_of_toNat_ne a _
            (by simp only [show ('\n' : Char).toNat = 10 from rfl]; omega)
          have hcr : a ≠ '\r' := char_ne_of_toNat_ne a _
            (by simp only [show ('\r' : Char).toNat = 13 from rfl]; omega)
          simp [jsonWs, hsp, hta, hnl, hcr]
        · refine char_ne_of_toNat_ne a _ ?_
          simp only [show (']' : Char).toNat = 93 from rfl]
          omega
        · refine char_ne_of_toNat_ne a _ ?_
          simp only [show ('\x7d' : Char).toNat = 125 from rfl]
          omega
  | str s => exact ⟨'"', escStr s.data ++ ['"'], by rw [dVal, quoteStr, List.cons_append], by decide, by decide, by decide⟩
  | arr xs =>
    cases xs with
    | nil => exact ⟨'[', [']'], by rw [dVal], by decide, by decide, by decide⟩
    | cons x xs => exact ⟨'[', '\n' :: dElems (lvl + 1) x xs ++ '\n' :: ind2 lvl ++ [']'], by rw [dVal]; simp, by decide, by decide, by decide⟩
  | obj kvs =>
    cases kvs with
    | nil => exact ⟨'\x7b', ['\x7d'], by rw [dVal], by decide, by decide, by decide⟩
    | cons kv kvs =>
      obtain ⟨k, w⟩ := kv
      exact ⟨'\x7b', '\n' :: dMembers (lvl + 1) k w kvs ++ '\n' :: ind2 lvl ++ ['\x7d'],
        by rw [dVal]; simp, by decide, by decide, by decide⟩

/-! ## Support lemmas for the serialization roundtrip -/

theorem sizeJ_pos (v : Json) : 1 ≤ sizeJ v := by
  cases v with
  | arr xs => cases xs <;> simp [sizeJ]
  | obj kvs =>
    cases kvs with
    | nil => simp [sizeJ]
    | cons kv kvs => obtain ⟨k, w⟩ := kv; simp [sizeJ]
  | null => simp [sizeJ]
  | bool b => simp [sizeJ]
  | num n => simp [sizeJ]
  | str s => simp [sizeJ]

theorem sizeE_pos (x : Json) (xs : List Json) : 1 ≤ sizeE x xs := by
  cases xs <;> simp [sizeE] <;> omega

theorem sizeM_pos (w : Json) (kvs : List (String × Json)) : 1 ≤ sizeM w kvs := by
  cases kvs with
  | nil => simp [sizeM]
  | cons kv kvs =>
    obtain ⟨k', w'⟩ := kv
    simp [sizeM]
    omega

theorem mem_ind2_ws (lvl : Nat) : ∀ c ∈ ind2 lvl, jsonWs c = true := by
  intro c hc
  rw [ind2] at hc
  rw [List.eq_of_mem_replicate hc]
  rfl

theorem pVal_ws (fuel : Nat) (ws0 cs : List Char) (h : ∀ c ∈ ws0, jsonWs c = true) :
    pVal fuel (ws0 ++ cs) = pVal fuel cs := by
  cases fuel with
  | zero => rfl
  | succ f =>
    conv_lhs => rw [pVal]
    conv_rhs => rw [pVal]
    rw [List.dropWhile_append_of_pos h]

theorem wfM_nodup : ∀ kvs : List (String × Json), wfM kvs = true →
    (kvs.map Prod.fst).Nodup := by
  intro kvs
  induction kvs with
  | nil => intro _; simp
  | cons kv rest ih =>
    obtain ⟨k, w⟩ := kv
    intro h
    rw [wfM] at h
    simp only [Bool.and_eq_true] at h
    obtain ⟨⟨hfresh, _⟩, hrest⟩ := h
    simp only [List.map_cons, List.nodup_cons]
    refine ⟨?_, ih hrest⟩
    intro hmem
    simp only [List.mem_map] at hmem
    obtain ⟨p, hp, hpk⟩ := hmem
    have := List.all_eq_true.mp hfresh p hp
    simp only [decide_eq_true_eq] at this
    exact this hpk

theorem dictInsert_fresh (acc : List (String × Json)) (k : String) (w : Json)
    (h : ∀ p ∈ acc, p.1 ≠ k) : dictInsert acc k w = acc ++ [(k, w)] := by
  rw [dictInsert, if_neg]
  simp only [List.any_eq_true, not_exists]
  intro p
  intro hcon
  simp only [decide_eq_true_eq] at hcon
  exact absurd hcon.2 (h p hcon.1)

theorem dElems_decomp (lvl : Nat) (x : Json) (xs : List Json) :
    ∃ sfx, dElems lvl x xs = ind2 lvl ++ (dVal lvl x ++ sfx) := by
  cases xs with
  | nil => exact ⟨[], by rw [dElems]; simp⟩
  | cons y ys => exact ⟨',' :: '\n' :: dElems lvl y ys, by rw [dElems]; simp⟩

theorem dMembers_decomp (lvl : Nat) (k : String) (w : Json) (kvs : List (String × Json)) :
    ∃ sfx, dMembers lvl k w kvs = ind2 lvl ++ ('"' :: sfx) := by
  cases kvs with
  | nil =>
    refine ⟨escStr k.data ++ '"' :: ':' :: ' ' :: dVal lvl w, ?_⟩
    rw [dMembers, quoteStr]
    simp
  | cons kv ps =>
    obtain ⟨k', w'⟩ := kv
    refine ⟨escStr k.data ++ '"' :: ':' :: ' ' :: (dVal lvl w ++ ',' :: '\n' :: dMembers lvl k' w' ps), ?_⟩
    rw [dMembers, quoteStr]
    simp

/-! ## The serialization roundtrip -/

theorem numStop_nl (X : List Char) : numStop ('\n' :: X) = true := rfl

theorem numStop_comma (X : List Char) : numStop (',' :: X) = true := rfl

theorem nodup_middle_not_mem {α : Type} {l1 l2 : List α} {a : α}
    (h : (l1 ++ a :: l2).Nodup) : a ∉ l1 := by
  rw [List.nodup_append] at h
  intro hm
  exact h.2.2 hm (List.mem_cons_self a l2)

theorem dumps_aux : ∀ fuel : Nat,
    (∀ (v : Json) (lvl : Nat) (rest : List Char),
      wfJ v = true → numStop rest = true → sizeJ v ≤ fuel →
      pVal fuel (dVal lvl v ++ rest) = some (v, rest)) ∧
    (∀ (x : Json) (xs : List Json) (acc : List Json) (lvl lvl2 : Nat) (ws0 rest : List Char),
      (∀ c ∈ ws0, jsonWs c = true) → wfJ x = true → wfL xs = true → sizeE x xs ≤ fuel →
      pElems fuel acc (ws0 ++ (dElems lvl x xs ++ '\n' :: (ind2 lvl2 ++ ']' :: rest)))
        = some (Json.arr (acc ++ x :: xs), rest)) ∧
    (∀ (w : Json) (kvs : List (String × Json)) (k : String) (acc : List (String × Json))
        (lvl lvl2 : Nat) (ws0 rest : List Char),
      (∀ c ∈ ws0, jsonWs c = true) → wfJ w = true → wfM kvs = true →
      (List.map Prod.fst (acc ++ (k, w) :: kvs)).Nodup → sizeM w kvs ≤ fuel →
      pMembers fuel acc (ws0 ++ (dMembers lvl k w kvs ++ '\n' :: (ind2 lvl2 ++ '\x7d' :: rest)))
        = some (Json.obj (acc ++ (k, w) :: kvs), rest)) := by
  intro fuel
  induction fuel with
  | zero =>
    refine ⟨?_, ?_, ?_⟩
    · intro v lvl rest _ _ hsz
      exact absurd hsz (by have := sizeJ_pos v; omega)
    · intro x xs acc lvl lvl2 ws0 rest _ _ _ hsz
      exact absurd hsz (by have := sizeE_pos x xs; omega)
    · intro w kvs k acc lvl lvl2 ws0 rest _ _ _ _ hsz
      exact absurd hsz (by have := sizeM_pos w kvs; omega)
  | succ f ih =>
    obtain ⟨ihv, ihe, ihm⟩ := ih
    refine ⟨?_, ?_, ?_⟩
    · intro v lvl rest hwf hns hsz
      cases v with
      | null =>
        rw [dVal]
        simp only [List.cons_append, List.nil_append]
        rw [pVal, dropWhile_ws_stop _ _ (by decide)]
        simp
      | bool b =>
        cases b with
        | true =>
          rw [dVal]
          simp only [List.cons_append, List.nil_append]
          rw [pVal, dropWhile_ws_stop _ _ (by decide)]
          simp
        | false =>
          rw [dVal]
          simp only [List.cons_append, List.nil_append]
          rw [pVal, dropWhile_ws_stop _ _ (by decide)]
          simp
      | str s =>
        rw [dVal, quoteStr]
        simp only [List.cons_append, List.append_assoc, List.singleton_append, List.nil_append]
        rw [pVal, dropWhile_ws_stop _ _ (by decide)]
        simp only []
        rw [if_neg (by decide : ¬ ('"' : Char) = '\x7b'),
          if_neg (by decide : ¬ ('"' : Char) = '['), if_pos trivial]
        rw [pStr_quote]
        rfl
      | num n =>
        have hpn := pNum_intChars n rest hns
        by_cases hn : n < 0
        · rw [intChars, if_pos hn] at hpn
          rw [dVal, intChars, if_pos hn]
          simp only [List.cons_append] at hpn ⊢
          rw [pVal, dropWhile_ws_stop _ _ (by decide)]
          simp only []
          rw [if_neg (by decide : ¬ ('-' : Char) = '\x7b'),
            if_neg (by decide : ¬ ('-' : Char) = '['),
            if_neg (by decide : ¬ ('-' : Char) = '"'),
            if_neg (by decide : ¬ ('-' : Char) = 't'),
            if_neg (by decide : ¬ ('-' : Char) = 'f'),
            if_neg (by decide : ¬ ('-' : Char) = 'n'),
            if_pos (Or.inl trivial : True ∨ ('-' : Char).isDigit = true)]
          rw [hpn]
          rfl
        · rw [intChars, if_neg hn] at hpn
          rw [dVal, intChars, if_neg hn]
          cases hd : natDigits n.toNat with
          | nil => exact absurd hd (natDigits_ne_nil _)
          | cons a t =>
            rw [hd] at hpn
            have ha : a.isDigit = true := by
              apply natDigits_all_digits n.toNat
              rw [hd]; exact List.mem_cons_self a t
            have hb := isDigit_toNat a ha
            have hws : jsonWs a = false := by
              have hsp : a ≠ ' ' := char_ne_of_toNat_ne a _
                (by simp only [show (' ' : Char).toNat = 32 from rfl]; omega)
              have hta : a ≠ '\t' := char_ne_of_toNat_ne a _
                (by simp only [show ('\t' : Char).toNat = 9 from rfl]; omega)
              have hnl : a ≠ '\n' := char_ne_of_toNat_ne a _
                (by simp only [show ('\n' : Char).toNat = 10 from rfl]; omega)
              have hcr : a ≠ '\r' := char_ne_of_toNat_ne a _
                (by simp only [show ('\r' : Char).toNat = 13 from rfl]; omega)
              simp [jsonWs, hsp, hta, hnl, hcr]
            simp only [List.cons_append] at hpn ⊢
            rw [pVal, dropWhile_ws_stop _ _ hws]
            simp only []
            rw [if_neg (char_ne_of_toNat_ne a _
              (by simp only [show ('\x7b' : Char).toNat = 123 from rfl]; omega))]
            rw [if_neg (char_ne_of_toNat_ne a _
              (by simp only [show ('[' : Char).toNat = 91 from rfl]; omega))]
            rw [if_neg (char_ne_of_toNat_ne a _
              (by simp only [show ('"' : Char).toNat = 34 from rfl]; omega))]
            rw [if_neg (char_ne_of_toNat_ne a _
              (by simp only [show ('t' : Char).toNat = 116 from rfl]; omega))]
            rw [if_neg (char_ne_of_toNat_ne a _
              (by simp only [show ('f' : Char).toNat = 102 from rfl]; omega))]
            rw [if_neg (char_ne_of_toNat_ne a _
              (by simp only [show ('n' : Char).toNat = 110 from rfl]; omega))]
            rw [if_pos (Or.inr ha)]
            rw [hpn]
            rfl
      | arr xs =>
        cases xs with
        | nil =>
          rw [dVal]
          simp only [List.cons_append, List.nil_append]
          rw [pVal, dropWhile_ws_stop _ _ (by decide)]
          simp only []
          rw [if_neg (by decide : ¬ ('[' : Char) = '\x7b'), if_pos trivial]
          rw [dropWhile_ws_stop _ _ (by decide)]
          simp
        | cons x xs =>
          rw [dVal]
          simp only [List.cons_append, List.append_assoc, List.singleton_append, List.nil_append]
          rw [pVal, dropWhile_ws_stop _ _ (by decide)]
          simp only []
          rw [if_neg (by decide : ¬ ('[' : Char) = '\x7b'), if_pos trivial]
          rw [wfJ, wfL] at hwf
          simp only [Bool.and_eq_true] at hwf
          obtain ⟨hwx, hwxs⟩ := hwf
          obtain ⟨sfx, hsfx⟩ := dElems_decomp (lvl + 1) x xs
          obtain ⟨c, t, hct, hcws, hcbr, hcbr2⟩ := dVal_head (lvl + 1) x
          have hdrop : (List.dropWhile jsonWs
              ('\n' :: (dElems (lvl + 1) x xs ++ '\n' :: (ind2 lvl ++ ']' :: rest))))
              = c :: (t ++ (sfx ++ '\n' :: (ind2 lvl ++ ']' :: rest))) := by
            rw [dropWhile_ws_cons _ _ (by decide), hsfx]
            simp only [List.append_assoc]
            rw [dropWhile_ws_ind2, hct]
            simp only [List.cons_append]
            rw [dropWhile_ws_stop _ _ hcws]
          rw [hdrop]
          simp only []
          rw [if_neg hcbr]
          have hsz' : sizeE x xs ≤ f := by
            rw [sizeJ] at hsz
            omega
          have happ := ihe x xs [] (lvl + 1) lvl ['\n'] rest
            (by intro cc hcc; simp at hcc; subst hcc; rfl) hwx hwxs hsz'
          simp only [List.cons_append, List.nil_append] at happ
          rw [happ]
      | obj kvs =>
        cases kvs with
        | nil =>
          rw [dVal]
          simp only [List.cons_append, List.nil_append]
          rw [pVal, dropWhile_ws_stop _ _ (by decide)]
          simp only []
          rw [if_pos trivial]
          rw [dropWhile_ws_stop _ _ (by decide)]
          simp
        | cons kv kvs =>
          obtain ⟨k, w⟩ := kv
          rw [dVal]
          simp only [List.cons_append, List.append_assoc, List.singleton_append, List.nil_append]
          rw [pVal, dropWhile_ws_stop _ _ (by decide)]
          simp only []
          rw [if_pos trivial]
          rw [wfJ, wfM] at hwf
          simp only [Bool.and_eq_true] at hwf
          obtain ⟨⟨hfresh, hww⟩, hwkvs⟩ := hwf
          obtain ⟨sfx, hsfx⟩ := dMembers_decomp (lvl + 1) k w kvs
          have hdrop : (List.dropWhile jsonWs
              ('\n' :: (dMembers (lvl + 1) k w kvs ++ '\n' :: (ind2 lvl ++ '\x7d' :: rest))))
              = '"' :: (sfx ++ '\n' :: (ind2 lvl ++ '\x7d' :: rest)) := by
            rw [dropWhile_ws_cons _ _ (by decide), hsfx]
            simp only [List.append_assoc, List.cons_append]
            rw [dropWhile_ws_ind2, dropWhile_ws_stop _ _ (by decide)]
          rw [hdrop]
          simp only []
          rw [if_neg (by decide : ¬ ('"' : Char) = '\x7d')]
          have hsz' : sizeM w kvs ≤ f := by
            rw [sizeJ] at hsz
            omega
          have hnd : (List.map Prod.fst (([] : List (String × Json)) ++ (k, w) :: kvs)).Nodup := by
            simp only [List.nil_append]
            apply wfM_nodup
            rw [wfM]
            simp only [hfresh, hww, hwkvs, Bool.and_true, Bool.true_and]
          have happ := ihm w kvs k [] (lvl + 1) lvl ['\n'] rest
            (by intro cc hcc; simp at hcc; subst hcc; rfl) hww hwkvs hnd hsz'
          simp only [List.cons_append, List.nil_append] at happ
          rw [happ]
    · intro x xs acc lvl lvl2 ws0 rest hws0 hwx hwxs hsz
      rw [pElems]
      cases xs with
      | nil =>
        rw [dElems]
        have hv : pVal f (ws0 ++ ((ind2 lvl ++ dVal lvl x) ++ '\n' :: (ind2 lvl2 ++ ']' :: rest)))
            = some (x, '\n' :: (ind2 lvl2 ++ ']' :: rest)) := by
          rw [show ws0 ++ ((ind2 lvl ++ dVal lvl x) ++ '\n' :: (ind2 lvl2 ++ ']' :: rest))
              = (ws0 ++ ind2 lvl) ++ (dVal lvl x ++ '\n' :: (ind2 lvl2 ++ ']' :: rest)) by
            simp [List.append_assoc]]
          rw [pVal_ws f (ws0 ++ ind2 lvl) _ (by
            intro cc hcc
            rcases List.mem_append.mp hcc with hh | hh
            · exact hws0 cc hh
            · exact mem_ind2_ws lvl cc hh)]
          apply ihv x lvl _ hwx (numStop_nl _)
          rw [sizeE] at hsz
          omega
        rw [hv]
        simp only []
        have hdrop2 : List.dropWhile jsonWs ('\n' :: (ind2 lvl2 ++ ']' :: rest)) = ']' :: rest := by
          rw [dropWhile_ws_cons _ _ (by decide), dropWhile_ws_ind2,
            dropWhile_ws_stop _ _ (by decide)]
        rw [hdrop2]
        simp only []
        rw [if_neg (by decide : ¬ (']' : Char) = ','), if_pos trivial]
      | cons y ys =>
        rw [dElems]
        have hv : pVal f (ws0 ++ ((ind2 lvl ++ dVal lvl x ++ ',' :: '\n' :: dElems lvl y ys)
              ++ '\n' :: (ind2 lvl2 ++ ']' :: rest)))
            = some (x, ',' :: ('\n' :: (dElems lvl y ys ++ '\n' :: (ind2 lvl2 ++ ']' :: rest)))) := by
          rw [show ws0 ++ ((ind2 lvl ++ dVal lvl x ++ ',' :: '\n' :: dElems lvl y ys)
                ++ '\n' :: (ind2 lvl2 ++ ']' :: rest))
              = (ws0 ++ ind2 lvl) ++ (dVal lvl x
                ++ ',' :: ('\n' :: (dElems lvl y ys ++ '\n' :: (ind2 lvl2 ++ ']' :: rest)))) by
            simp [List.append_assoc]]
          rw [pVal_ws f (ws0 ++ ind2 lvl) _ (by
            intro cc hcc
            rcases List.mem_append.mp hcc with hh | hh
            · exact hws0 cc hh
            · exact mem_ind2_ws lvl cc hh)]
          apply ihv x lvl _ hwx (numStop_comma _)
          rw [sizeE] at hsz
          have := sizeE_pos y ys
          omega
        rw [hv]
        simp only []
        rw [dropWhile_ws_stop _ _ (by decide)]
        simp only []
        rw [if_pos trivial]
        rw [wfL] at hwxs
        simp only [Bool.and_eq_true] at hwxs
        obtain ⟨hwy, hwys⟩ := hwxs
        have hsz' : sizeE y ys ≤ f := by
          rw [sizeE] at hsz
          have := sizeJ_pos x
          omega
        have happ := ihe y ys (acc ++ [x]) lvl lvl2 ['\n'] rest
          (by intro cc hcc; simp at hcc; subst hcc; rfl) hwy hwys hsz'
        simp only [List.cons_append, List.nil_append] at happ
        rw [happ]
        simp
    · intro w kvs k acc lvl lvl2 ws0 rest hws0 hww hwkvs hnd hsz
      have hfresh : ∀ p ∈ acc, p.1 ≠ k := by
        intro p hp hpk
        have hkmem : k ∈ List.map Prod.fst acc := by
          simp only [List.mem_map]
          exact ⟨p, hp, hpk⟩
        have hnotmem : k ∉ List.map Prod.fst acc := by
          have := hnd
          rw [List.map_append, List.map_cons] at this
          exact nodup_middle_not_mem this
        exact hnotmem hkmem
      rw [pMembers]
      cases kvs with
      | nil =>
        rw [dMembers, quoteStr]
        have hdropk : List.dropWhile jsonWs (ws0 ++ ((ind2 lvl ++ ('"' :: escStr k.data ++ ['"'])
              ++ ':' :: ' ' :: dVal lvl w) ++ '\n' :: (ind2 lvl2 ++ '\x7d' :: rest)))
            = '"' :: (escStr k.data ++ '"' :: (':' :: ' ' :: (dVal lvl w
              ++ '\n' :: (ind2 lvl2 ++ '\x7d' :: rest)))) := by
          rw [List.dropWhile_append_of_pos hws0]
          simp only [List.append_assoc, List.cons_append, List.singleton_append, List.nil_append]
          rw [dropWhile_ws_ind2, dropWhile_ws_stop _ _ (by decide)]
        rw [hdropk]
        simp only []
        rw [if_pos trivial]
        rw [pStr_quote]
        simp only []
        rw [dropWhile_ws_stop _ _ (by decide)]
        simp only []
        rw [if_pos trivial]
        have hv : pVal f (' ' :: (dVal lvl w ++ '\n' :: (ind2 lvl2 ++ '\x7d' :: rest)))
            = some (w, '\n' :: (ind2 lvl2 ++ '\x7d' :: rest)) := by
          rw [show (' ' :: (dVal lvl w ++ '\n' :: (ind2 lvl2 ++ '\x7d' :: rest)))
              = [' '] ++ (dVal lvl w ++ '\n' :: (ind2 lvl2 ++ '\x7d' :: rest)) from rfl]
          rw [pVal_ws f [' '] _ (by intro cc hcc; simp at hcc; subst hcc; rfl)]
          apply ihv w lvl _ hww (numStop_nl _)
          rw [sizeM] at hsz
          omega
        rw [hv]
        simp only []
        have hdrop2 : List.dropWhile jsonWs ('\n' :: (ind2 lvl2 ++ '\x7d' :: rest))
            = '\x7d' :: rest := by
          rw [dropWhile_ws_cons _ _ (by decide), dropWhile_ws_ind2,
            dropWhile_ws_stop _ _ (by decide)]
        rw [hdrop2]
        simp only []
        rw [if_neg (by decide : ¬ ('\x7d' : Char) = ','), if_pos trivial]
        rw [dictInsert_fresh acc k w hfresh]
      | cons kv ps =>
        obtain ⟨k', w'⟩ := kv
        rw [dMembers, quoteStr]
        have hdropk : List.dropWhile jsonWs (ws0 ++ ((ind2 lvl ++ ('"' :: escStr k.data ++ ['"'])
              ++ ':' :: ' ' :: dVal lvl w ++ ',' :: '\n' :: dMembers lvl k' w' ps)
              ++ '\n' :: (ind2 lvl2 ++ '\x7d' :: rest)))
            = '"' :: (escStr k.data ++ '"' :: (':' :: ' ' :: (dVal lvl w
              ++ ',' :: ('\n' :: (dMembers lvl k' w' ps ++ '\n' :: (ind2 lvl2 ++ '\x7d' :: rest)))))) := by
          rw [List.dropWhile_append_of_pos hws0]
          simp only [List.append_assoc, List.cons_append, List.singleton_append, List.nil_append]
          rw [dropWhile_ws_ind2, dropWhile_ws_stop _ _ (by decide)]
        rw [hdropk]
        simp only []
        rw [if_pos trivial]
        rw [pStr_quote]
        simp only []
        rw [dropWhile_ws_stop _ _ (by decide)]
        simp only []
        rw [if_pos trivial]
        have hv : pVal f (' ' :: (dVal lvl w
              ++ ',' :: ('\n' :: (dMembers lvl k' w' ps ++ '\n' :: (ind2 lvl2 ++ '\x7d' :: rest)))))
            = some (w, ',' :: ('\n' :: (dMembers lvl k' w' ps
              ++ '\n' :: (ind2 lvl2 ++ '\x7d' :: rest)))) := by
          rw [show (' ' :: (dVal lvl w ++ ',' :: ('\n' :: (dMembers lvl k' w' ps
                ++ '\n' :: (ind2 lvl2 ++ '\x7d' :: rest)))))
              = [' '] ++ (dVal lvl w ++ ',' :: ('\n' :: (dMembers lvl k' w' ps
                ++ '\n' :: (ind2 lvl2 ++ '\x7d' :: rest)))) from rfl]
          rw [pVal_ws f [' '] _ (by intro cc hcc; simp at hcc; subst hcc; rfl)]
          apply ihv w lvl _ hww (numStop_comma _)
          rw [sizeM] at hsz
          have := sizeM_pos w' ps
          omega
        rw [hv]
        simp only []
        rw [dropWhile_ws_stop _ _ (by decide)]
        simp only []
        rw [if_pos trivial]
        rw [wfM] at hwkvs
        simp only [Bool.and_eq_true] at hwkvs
        obtain ⟨⟨hfresh', hww'⟩, hwps⟩ := hwkvs
        have hsz' : sizeM w' ps ≤ f := by
          rw [sizeM] at hsz
          have := sizeJ_pos w
          omega
        have hnd' : (List.map Prod.fst ((acc ++ [(k, w)]) ++ (k', w') :: ps)).Nodup := by
          rw [show (acc ++ [(k, w)]) ++ (k', w') :: ps = acc ++ (k, w) :: (k', w') :: ps by simp]
          exact hnd
        have happ := ihm w' ps k' (acc ++ [(k, w)]) lvl lvl2 ['\n'] rest
          (by intro cc hcc; simp at hcc; subst hcc; rfl) hww' hwps hnd' hsz'
        simp only [List.cons_append, List.nil_append] at happ
        rw [dictInsert_fresh acc k w hfresh]
        rw [happ]
        simp

theorem pVal_dumps (v : Json) (lvl fuel : Nat) (rest : List Char)
    (hwf : wfJ v = true) (hns : numStop rest = true) (hsz : sizeJ v ≤ fuel) :
    pVal fuel (dVal lvl v ++ rest) = some (v, rest) :=
  (dumps_aux fuel).1 v lvl rest hwf hns hsz

/-! ## Fuel adequacy and the top-level roundtrip -/

theorem intChars_ne_nil (n : Int) : intChars n ≠ [] := by
  rw [intChars]
  split
  · simp
  · exact natDigits_ne_nil _

theorem size_len_aux : ∀ n : Nat,
    (∀ (v : Json) (lvl : Nat), sizeOf v ≤ n → sizeJ v ≤ (dVal lvl v).length) ∧
    (∀ (x : Json) (xs : List Json) (lvl : Nat), 1 ≤ lvl → sizeOf x + sizeOf xs ≤ n →
      sizeE x xs ≤ (dElems lvl x xs).length) ∧
    (∀ (k : String) (w : Json) (kvs : List (String × Json)) (lvl : Nat), 1 ≤ lvl →
      sizeOf w + sizeOf kvs ≤ n → sizeM w kvs ≤ (dMembers lvl k w kvs).length) := by
  intro n
  induction n with
  | zero =>
    refine ⟨?_, ?_, ?_⟩
    · intro v lvl hsz
      exact absurd hsz (by cases v <;> simp <;> omega)
    · intro x xs lvl _ hsz
      have h1 : 1 ≤ sizeOf x := by cases x <;> simp
      omega
    · intro k w kvs lvl _ hsz
      have h1 : 1 ≤ sizeOf w := by cases w <;> simp
      omega
  | succ n ih =>
    obtain ⟨ihv, ihe, ihm⟩ := ih
    refine ⟨?_, ?_, ?_⟩
    · intro v lvl hsz
      cases v with
      | null => rw [dVal]; simp [sizeJ]
      | bool b => cases b <;> (rw [dVal]; simp [sizeJ])
      | num m =>
        rw [dVal, sizeJ]
        have := intChars_ne_nil m
        cases hc : intChars m with
        | nil => exact absurd hc this
        | cons a t => simp
      | str s => rw [dVal, quoteStr, sizeJ]; simp
      | arr xs =>
        cases xs with
        | nil => rw [dVal]; simp [sizeJ]
        | cons x xs =>
          rw [dVal, sizeJ]
          have hx : sizeE x xs ≤ (dElems (lvl + 1) x xs).length := by
            apply ihe x xs (lvl + 1) (by omega)
            simp at hsz
            omega
          simp
          omega
      | obj kvs =>
        cases kvs with
        | nil => rw [dVal]; simp [sizeJ]
        | cons kv kvs =>
          obtain ⟨k, w⟩ := kv
          rw [dVal, sizeJ]
          have hx : sizeM w kvs ≤ (dMembers (lvl + 1) k w kvs).length := by
            apply ihm k w kvs (lvl + 1) (by omega)
            simp at hsz
            omega
          simp
          omega
    · intro x xs lvl hlvl hsz
      cases xs with
      | nil =>
        rw [dElems, sizeE]
        have hx : sizeJ x ≤ (dVal lvl x).length := by
          apply ihv x lvl
          simp at hsz
          omega
        simp [ind2]
        omega
      | cons y ys =>
        rw [dElems, sizeE]
        have hx : sizeJ x ≤ (dVal lvl x).length := by
          apply ihv x lvl
          simp at hsz
          omega
        have hy : sizeE y ys ≤ (dElems lvl y ys).length := by
          apply ihe y ys lvl hlvl
          simp at hsz
          omega
        simp [ind2]
        omega
    · intro k w kvs lvl hlvl hsz
      cases kvs with
      | nil =>
        rw [dMembers, sizeM]
        have hx : sizeJ w ≤ (dVal lvl w).length := by
          apply ihv w lvl
          simp at hsz
          omega
        simp [ind2]
        omega
      | cons kv ps =>
        obtain ⟨k', w'⟩ := kv
        rw [dMembers, sizeM]
        have hx : sizeJ w ≤ (dVal lvl w).length := by
          apply ihv w lvl
          simp at hsz
          omega
        have hy : sizeM w' ps ≤ (dMembers lvl k' w' ps).length := by
          apply ihm k' w' ps lvl hlvl
          simp at hsz
          omega
        simp [ind2]
        omega

/-- Serialize-then-parse is the identity on well-formed values: the law
`json.loads(json.dumps(v, ensure_ascii=False, indent=2)) == v`. -/
theorem loads_dumps (v : Json) (hwf : wfJ v = true) :
    json_loads (json_dumps v) = some v := by
  rw [json_loads, json_dumps]
  have hsz : sizeJ v ≤ (dVal 0 v).length + 1 := by
    have := (size_len_aux (sizeOf v)).1 v 0 (Nat.le_refl _)
    omega
  have hp : pVal ((dVal 0 v).length + 1) (dVal 0 v ++ []) = some (v, []) :=
    pVal_dumps v 0 _ [] hwf rfl hsz
  rw [List.append_nil] at hp
  simp only [String.length, String.data]
  rw [hp]
  rfl

/-! ## Parsed values are well-formed -/

theorem wfL_append (a b : List Json) : wfL (a ++ b) = (wfL a && wfL b) := by
  induction a with
  | nil => simp [wfL]
  | cons x xs ih =>
    simp only [List.cons_append]
    rw [wfL, wfL, ih]
    simp [Bool.and_assoc]

theorem all_key_map_update (ps : List (String × Json)) (k k0 : String) (v : Json) :
    ((ps.map fun p => if p.1 = k then (k, v) else p).all fun p => p.1 ≠ k0)
      = (ps.all fun p => p.1 ≠ k0) := by
  rw [List.all_map]
  induction ps with
  | nil => rfl
  | cons p ps ih =>
    simp only [List.all_cons, ih]
    congr 1
    by_cases hp : p.1 = k
    · simp [Function.comp, hp]
    · simp [Function.comp, hp]

theorem wfM_map_update (acc : List (String × Json)) (k : String) (v : Json)
    (hacc : wfM acc = true) (hv : wfJ v = true) :
    wfM (acc.map fun p => if p.1 = k then (k, v) else p) = true := by
  induction acc with
  | nil => simp [wfM]
  | cons p ps ih =>
    obtain ⟨k0, v0⟩ := p
    rw [wfM] at hacc
    simp only [Bool.and_eq_true] at hacc
    obtain ⟨⟨hfresh0, hv0⟩, hps⟩ := hacc
    simp only [List.map_cons]
    by_cases hk : k0 = k
    · simp only [if_pos hk]
      rw [wfM]
      simp only [Bool.and_eq_true]
      refine ⟨⟨?_, hv⟩, ih hps⟩
      rw [all_key_map_update]
      rw [← hk]
      exact hfresh0
    · simp only [if_neg hk]
      rw [wfM]
      simp only [Bool.and_eq_true]
      refine ⟨⟨?_, hv0⟩, ih hps⟩
      rw [all_key_map_update]
      exact hfresh0

theorem wfM_append_fresh (acc : List (String × Json)) (k : String) (v : Json)
    (hacc : wfM acc = true) (hv : wfJ v = true) (hfresh : ∀ p ∈ acc, p.1 ≠ k) :
    wfM (acc ++ [(k, v)]) = true := by
  induction acc with
  | nil => simp [wfM, hv]
  | cons p ps ih =>
    obtain ⟨k0, v0⟩ := p
    rw [wfM] at hacc
    simp only [Bool.and_eq_true] at hacc
    obtain ⟨⟨hfresh0, hv0⟩, hps⟩ := hacc
    simp only [List.cons_append]
    rw [wfM]
    simp only [Bool.and_eq_true]
    refine ⟨⟨?_, hv0⟩, ih hps (fun p hp => hfresh p (List.mem_cons_of_mem _ hp))⟩
    rw [List.all_append]
    simp only [Bool.and_eq_true]
    constructor
    · exact hfresh0
    · simp only [List.all_cons, List.all_nil, Bool.and_true]
      have := hfresh (k0, v0) (List.mem_cons_self _ _)
      simp only [decide_eq_true_eq]
      exact fun he => this he.symm

theorem wfM_dictInsert (acc : List (String × Json)) (k : String) (v : Json)
    (hacc : wfM acc = true) (hv : wfJ v = true) :
    wfM (dictInsert acc k v) = true := by
  rw [dictInsert]
  split
  · exact wfM_map_update acc k v hacc hv
  · rename_i hany
    apply wfM_append_fresh acc k v hacc hv
    intro p hp hpk
    apply hany
    simp only [List.any_eq_true]
    exact ⟨p, hp, by simp [hpk]⟩

theorem parse_wf_aux : ∀ fuel : Nat,
    (∀ (cs : List Char) (v : Json) (r : List Char),
      pVal fuel cs = some (v, r) → wfJ v = true) ∧
    (∀ (acc : List Json) (cs : List Char) (v : Json) (r : List Char),
      wfL acc = true → pElems fuel acc cs = some (v, r) → wfJ v = true) ∧
    (∀ (acc : List (String × Json)) (cs : List Char) (v : Json) (r : List Char),
      wfM acc = true → pMembers fuel acc cs = some (v, r) → wfJ v = true) := by
  intro fuel
  induction fuel with
  | zero =>
    refine ⟨?_, ?_, ?_⟩
    · intro cs v r h
      rw [pVal] at h
      exact absurd h (by simp)
    · intro acc cs v r _ h
      rw [pElems] at h
      exact absurd h (by simp)
    · intro acc cs v r _ h
      rw [pMembers] at h
      exact absurd h (by simp)
  | succ f ih =>
    obtain ⟨ihv, ihe, ihm⟩ := ih
    refine ⟨?_, ?_, ?_⟩
    · intro cs v r h
      rw [pVal] at h
      split at h
      · exact absurd h (by simp)
      · rename_i c rest _
        split at h
        · -- '{' branch
          split at h
          · exact ihm [] rest v r (by rw [wfM]) h
          · split at h
            · simp only [Option.some.injEq, Prod.mk.injEq] at h
              rw [← h.1]
              simp [wfJ, wfL, wfM]
            · exact ihm [] rest v r (by rw [wfM]) h
        · split at h
          · -- '[' branch
            split at h
            · exact ihe [] rest v r (by rw [wfL]) h
            · split at h
              · simp only [Option.some.injEq, Prod.mk.injEq] at h
                rw [← h.1]
                simp [wfJ, wfL, wfM]
              · exact ihe [] rest v r (by rw [wfL]) h
          · split at h
            · -- '"' branch
              simp only [Option.map_eq_some'] at h
              obtain ⟨p, _, hp⟩ := h
              simp only [Prod.mk.injEq] at hp
              rw [← hp.1]
              simp [wfJ]
            · split at h
              · split at h
                · simp only [Option.some.injEq, Prod.mk.injEq] at h
                  rw [← h.1]
                  simp [wfJ, wfL, wfM]
                · exact absurd h (by simp)
              · split at h
                · split at h
                  · simp only [Option.some.injEq, Prod.mk.injEq] at h
                    rw [← h.1]
                    simp [wfJ, wfL, wfM]
                  · exact absurd h (by simp)
                · split at h
                  · split at h
                    · simp only [Option.some.injEq, Prod.mk.injEq] at h
                      rw [← h.1]
                      simp [wfJ, wfL, wfM]
                    · exact absurd h (by simp)
                  · split at h
                    · simp only [Option.map_eq_some'] at h
                      obtain ⟨p, _, hp⟩ := h
                      simp only [Prod.mk.injEq] at hp
                      rw [← hp.1]
                      simp [wfJ]
                    · exact absurd h (by simp)
    · intro acc cs v r hacc h
      rw [pElems] at h
      split at h
      · exact absurd h (by simp)
      · rename_i v1 r1 hv1
        have hwv1 : wfJ v1 = true := ihv cs v1 r1 hv1
        split at h
        · exact absurd h (by simp)
        · split at h
          · refine ihe (acc ++ [v1]) _ v r ?_ h
            rw [wfL_append]
            simp [hacc, wfL, hwv1]
          · split at h
            · simp only [Option.some.injEq, Prod.mk.injEq] at h
              rw [← h.1]
              rw [wfJ, wfL_append]
              simp [hacc, wfL, hwv1]
            · exact absurd h (by simp)
    · intro acc cs v r hacc h
      rw [pMembers] at h
      split at h
      · exact absurd h (by simp)
      · split at h
        · split at h
          · exact absurd h (by simp)
          · rename_i k r1 _
            split at h
            · exact absurd h (by simp)
            · split at h
              · split at h
                · exact absurd h (by simp)
                · rename_i v1 r3 hv1
                  have hwv1 : wfJ v1 = true := ihv _ v1 r3 hv1
                  split at h
                  · exact absurd h (by simp)
                  · split at h
                    · exact ihm (dictInsert acc k v1) _ v r
                        (wfM_dictInsert acc k v1 hacc hwv1) h
                    · split at h
                      · simp only [Option.some.injEq, Prod.mk.injEq] at h
                        rw [← h.1]
                        rw [wfJ]
                        exact wfM_dictInsert acc k v1 hacc hwv1
                      · exact absurd h (by simp)
              · exact absurd h (by simp)
        · exact absurd h (by simp)

/-- Every successfully parsed value is well-formed (duplicate object keys are
collapsed by the Python-`dict` insertion). -/
theorem json_loads_wf (s : String) (v : Json) (h : json_loads s = some v) :
    wfJ v = true := by
  rw [json_loads] at h
  split at h
  · rename_i v1 r1 hp
    split at h
    · simp only [Option.some.injEq] at h
      subst h
      exact (parse_wf_aux _).1 _ _ _ hp
    · exact absurd h (by simp)
  · exact absurd h (by simp)

/-! ## Preprocessing no-ops on brace-delimited text -/

theorem dropRightWhile_stop (p : Char → Bool) (cs : List Char) (c : Char)
    (hl : cs.getLast? = some c) (hp : p c = false) : dropRightWhile p cs = cs := by
  rw [dropRightWhile]
  have hrev : cs.reverse.head? = some c := by
    rw [List.head?_reverse]
    exact hl
  cases hr : cs.reverse with
  | nil => simp [hr] at hrev
  | cons a t =>
    rw [hr] at hrev
    simp only [List.head?_cons, Option.some.injEq] at hrev
    subst hrev
    rw [List.dropWhile_cons_of_neg (by simp [hp])]
    rw [← hr, List.reverse_reverse]

theorem pyStrip_stop (cs : List Char) (b e : Char)
    (hh : cs.head? = some b) (hl : cs.getLast? = some e)
    (hb : pyWs b = false) (he : pyWs e = false) : pyStrip cs = cs := by
  rw [pyStrip]
  cases hc : cs with
  | nil => simp [hc] at hh
  | cons a t =>
    rw [hc] at hh
    simp only [List.head?_cons, Option.some.injEq] at hh
    subst hh
    rw [List.dropWhile_cons_of_neg (by simp [hb])]
    rw [← hc]
    exact dropRightWhile_stop pyWs cs e hl he

theorem stripFenceStart_stop (cs : List Char) (b : Char)
    (hh : cs.head? = some b) (hb : b ≠ btChar) : stripFenceStart cs = cs := by
  rw [stripFenceStart, if_neg]
  intro hc
  cases hcs : cs with
  | nil => simp [hcs] at hh
  | cons a t =>
    rw [hcs] at hh hc
    simp only [List.head?_cons, Option.some.injEq] at hh
    simp only [List.take_succ_cons] at hc
    subst hh
    exact hb (by injection hc)

theorem stripFenceEnd_stop (cs : List Char) (e : Char)
    (hl : cs.getLast? = some e) (he1 : e ≠ btChar) (he2 : e ≠ '\n') :
    stripFenceEnd cs = cs := by
  have hrev : cs.reverse.head? = some e := by
    rw [List.head?_reverse]
    exact hl
  have hf : endsFence cs = false := by
    rw [endsFence]
    cases hr : cs.reverse with
    | nil => simp [hr] at hrev
    | cons a t =>
      rw [hr] at hrev
      simp only [List.head?_cons, Option.some.injEq] at hrev
      subst hrev
      simp only [List.take_succ_cons]
      simp only [decide_eq_false_iff_not]
      intro hc
      exact he1 (by injection hc)
  have hfn : endsFenceNl cs = false := by
    rw [endsFenceNl]
    cases hr : cs.reverse with
    | nil => simp [hr] at hrev
    | cons a t =>
      rw [hr] at hrev
      simp only [List.head?_cons, Option.some.injEq] at hrev
      subst hrev
      simp only [List.take_succ_cons]
      simp only [decide_eq_false_iff_not]
      intro hc
      exact he2 (by injection hc)
  rw [stripFenceEnd, hf, hfn]
  simp

/-- The `fix_json` preprocessing leaves brace-delimited text unchanged. -/
theorem fixPreprocess_brace (cs : List Char)
    (hh : cs.head? = some '\x7b') (hl : cs.getLast? = some '\x7d') :
    fixPreprocess cs = cs := by
  rw [fixPreprocess]
  rw [pyStrip_stop cs _ _ hh hl (by decide) (by decide)]
  rw [stripFenceStart_stop cs _ hh (by decide)]
  rw [stripFenceEnd_stop cs _ hl (by decide) (by decide)]
  exact pyStrip_stop cs _ _ hh hl (by decide) (by decide)

theorem dVal_obj_head (lvl : Nat) (kvs : List (String × Json)) :
    (dVal lvl (Json.obj kvs)).head? = some '\x7b' := by
  cases kvs with
  | nil => rw [dVal]; rfl
  | cons kv kvs =>
    obtain ⟨k, w⟩ := kv
    rw [dVal]
    simp

theorem dVal_obj_last (lvl : Nat) (kvs : List (String × Json)) :
    (dVal lvl (Json.obj kvs)).getLast? = some '\x7d' := by
  cases kvs with
  | nil => rw [dVal]; rfl
  | cons kv kvs =>
    obtain ⟨k, w⟩ := kv
    rw [dVal]
    rw [show ('\x7b' :: '\n' :: dMembers (lvl + 1) k w kvs ++ '\n' :: ind2 lvl ++ ['\x7d'])
        = ('\x7b' :: '\n' :: dMembers (lvl + 1) k w kvs ++ '\n' :: ind2 lvl) ++ ['\x7d'] by
      simp]
    rw [List.getLast?_concat]

theorem wfL_map_str (l : List String) : wfL (l.map Json.str) = true := by
  induction l with
  | nil => rw [List.map_nil, wfL]
  | cons s l ih =>
    rw [List.map_cons, wfL, wfJ, ih]
    rfl

theorem wf_planObj (a b c : List String) : wfJ (planObj a b c) = true := by
  rw [planObj, wfJ, wfM, wfM, wfM, wfM]
  simp [wfJ, wfL_map_str]

/-- When the first strategy succeeds on the preprocessed text, `fix_json`
returns its result. -/
theorem fix_json_strategy1 (jsonStr : String) (out : String)
    (h : strategy1 (fixPreprocess jsonStr.data) = some out) :
    fix_json jsonStr = some out := by
  rw [fix_json]
  simp only [h]
  rfl

/-! # Claim theorems -/

/-- **C2** — For every object `O` of the Plan shape (fields `steps`,
`assumptions`, `success_criteria`, each a sequence of strings), serializing
`O` and passing the text to `fix_json` succeeds via the first strategy
(fence strip + direct parse) and returns the same canonical serialization,
and parsing the returned text yields exactly `O`. -/
theorem C2_plan_shape_roundtrip (steps assumptions criteria : List String) :
    strategy1 (fixPreprocess (json_dumps (planObj steps assumptions criteria)).data)
      = some (json_dumps (planObj steps assumptions criteria))
    ∧ fix_json (json_dumps (planObj steps assumptions criteria))
      = some (json_dumps (planObj steps assumptions criteria))
    ∧ json_loads (json_dumps (planObj steps assumptions criteria))
      = some (planObj steps assumptions criteria) := by
  have hwf := wf_planObj steps assumptions criteria
  have hloads := loads_dumps _ hwf
  have hpre : fixPreprocess (json_dumps (planObj steps assumptions criteria)).data
      = (json_dumps (planObj steps assumptions criteria)).data := by
    apply fixPreprocess_brace
    · exact dVal_obj_head 0 _
    · exact dVal_obj_last 0 _
  have hs1 : strategy1 (fixPreprocess (json_dumps (planObj steps assumptions criteria)).data)
      = some (json_dumps (planObj steps assumptions criteria)) := by
    rw [hpre, strategy1]
    show (json_loads (json_dumps (planObj steps assumptions criteria))).map json_dumps = _
    rw [hloads]
    rfl
  exact ⟨hs1, fix_json_strategy1 _ _ hs1, hloads⟩

/-! ## Every `fix_json` success is a re-serialization of a parsed value -/

theorem strat_out_loads {X out : String}
    (h : (json_loads X).map json_dumps = some out) : (json_loads out).isSome = true := by
  cases hl : json_loads X with
  | none => rw [hl] at h; simp at h
  | some v =>
    rw [hl] at h
    simp only [Option.map_some', Option.some.injEq] at h
    rw [← h, loads_dumps v (json_loads_wf X v hl)]
    rfl

theorem wf_fallbackObj (l : List String) : wfJ (fallbackObj l) = true :=
  wf_planObj l [] []

theorem orElse_cases {α : Type} (a : Option α) (f : Unit → Option α) (x : α)
    (h : a.orElse f = some x) : a = some x ∨ (a = none ∧ f () = some x) := by
  cases a with
  | none => right; exact ⟨rfl, h⟩
  | some y => left; exact h

/-- **C9** — Whenever `fix_json` returns a value, that value is valid JSON
text: every success path re-serializes a value that was successfully parsed
or constructed, so parsing `fix_json`'s output can never fail — including on
the lossy line-salvage fallback. -/
theorem C9_fix_json_output_parses (s out : String) (h : fix_json s = some out) :
    (json_loads out).isSome = true := by
  rw [fix_json] at h
  rcases orElse_cases _ _ _ h with h1 | ⟨_, h⟩
  · rw [strategy1] at h1
    exact strat_out_loads h1
  · rcases orElse_cases _ _ _ h with h2 | ⟨_, h⟩
    · rw [strategy23] at h2
      split at h2
      · exact absurd h2 (by simp)
      · rcases orElse_cases _ _ _ h2 with h3 | ⟨_, h3⟩
        · rw [strategy2] at h3
          split at h3
          · exact absurd h3 (by simp)
          · exact strat_out_loads h3
        · rw [strategy3] at h3
          exact strat_out_loads h3
    · rcases orElse_cases _ _ _ h with h4 | ⟨_, h⟩
      · rw [strategy4] at h4
        split at h4 <;> split at h4
        · simp only [Option.some.injEq] at h4
          rw [← h4, loads_dumps _ (wf_fallbackObj _)]
          rfl
        · exact absurd h4 (by simp)
        · simp only [Option.some.injEq] at h4
          rw [← h4, loads_dumps _ (wf_fallbackObj _)]
          rfl
        · exact absurd h4 (by simp)
      · rcases orElse_cases _ _ _ h with h5 | ⟨_, h5⟩
        · rw [strategy5] at h5
          split at h5
          · exact absurd h5 (by simp)
          · exact absurd h5 (by simp)
          · split at h5
            · exact absurd h5 (by simp)
            · exact strat_out_loads h5
        · rw [strategy6] at h5
          split at h5
          · exact strat_out_loads h5
          · exact absurd h5 (by simp)

theorem String_mk_data (s : String) : String.mk s.data = s := rfl

/-- **C4 (amended)** — For input text that is a valid JSON object followed by
trailing unrelated prose, *provided* the depth-counting scan (which ignores
string context) ends exactly at the object's final brace, the preprocessing
leaves the text unchanged and the direct parse of the whole text fails, the
brace-balanced strategy extracts exactly the object: `fix_json` returns its
re-serialization, which parses back to the same value; the prose does not
affect the result. -/
theorem C4_brace_balanced_extract (s : String) (obj prose : List Char) (v : Json)
    (hsplit : s.data = obj ++ prose)
    (h1 : json_loads (String.mk obj) = some v)
    (h2 : obj.head? = some '\x7b')
    (h3 : fixPreprocess s.data = s.data)
    (h4 : json_loads s = none)
    (h5 : findBraceEnd (obj ++ prose) 0 0 = some (obj.length - 1)) :
    fix_json s = some (json_dumps v) ∧ json_loads (json_dumps v) = some v := by
  have hwf := json_loads_wf _ _ h1
  have hrt := loads_dumps v hwf
  refine ⟨?_, hrt⟩
  obtain ⟨o1, otl, rfl⟩ : ∃ o1 otl, obj = o1 :: otl := by
    cases obj with
    | nil => simp at h2
    | cons a t => exact ⟨a, t, rfl⟩
  have ho1 : o1 = '\x7b' := by simpa using h2
  subst ho1
  have htail : s.data.dropWhile (fun c => c ≠ '\x7b') = ('\x7b' :: otl) ++ prose := by
    rw [hsplit]
    simp only [List.cons_append]
    rw [List.dropWhile_cons_of_neg (by simp)]
  have hs1 : strategy1 (fixPreprocess s.data) = none := by
    rw [h3, strategy1, String_mk_data, h4]
    rfl
  have hs2 : strategy2 (('\x7b' :: otl) ++ prose) = some (json_dumps v) := by
    rw [strategy2, h5]
    simp only []
    have hlen : ('\x7b' :: otl).length - 1 + 1 = ('\x7b' :: otl).length := by
      simp
    rw [hlen]
    rw [show (('\x7b' :: otl) ++ prose).take ('\x7b' :: otl).length = '\x7b' :: otl from
      List.take_left _ _]
    rw [h1]
    rfl
  have hs23 : strategy23 (fixPreprocess s.data) = some (json_dumps v) := by
    rw [h3, strategy23, htail]
    rw [if_neg (by simp)]
    rw [hs2]
    rfl
  rw [fix_json]
  rw [hs1, hs23]
  rfl

/-! ## C1: the truncated-input example -/

theorem c1_candidate_eval :
    strategy3Candidate (("\x7b\"steps\": [\"Warm up\", \"Main set").data)
      = ("\x7b\"steps\": [\"Warm up\", \"Main set\"\x7d").data := by
  simp [strategy3Candidate, pyRstrip, dropRightWhile, stripTicksEnd, endsFence,
    endsFenceNl, pyWs, btChar, closeOpenQuotes, countUnescapedQuotes,
    stripTrailingCommas, stripTCGo, List.filter, List.dropWhile, String.data]

theorem c1_closed_loads_none :
    json_loads (String.mk (("\x7b\"steps\": [\"Warm up\", \"Main set\"\x7d").data)) = none := by
  simp [json_loads, pVal, pMembers, pElems, pStr, pStrGo, pEsc, pUEsc, pNum,
    jsonWs, numStop, digitsVal, dictInsert, hexVal, escCode, List.dropWhile,
    List.takeWhile, String.data]

theorem c1_strategy3_none :
    strategy3 (("\x7b\"steps\": [\"Warm up\", \"Main set").data) = none := by
  rw [strategy3, c1_candidate_eval, c1_closed_loads_none]
  rfl

/-- **C1 (counterexample)** — On the truncated input
`{"steps": ["Warm up", "Main set` the heuristic repair (strategy 3) does
close the open quote and pad the missing brace, producing
`{"steps": ["Warm up", "Main set"}` — but that candidate still fails to
parse (the array is never closed; only braces are padded, never brackets),
so strategy 3 yields nothing, contradicting the claim that it produces a
parseable object. -/
theorem C1_strategy3_counterexample :
    strategy3Candidate (("\x7b\"steps\": [\"Warm up\", \"Main set").data)
      = ("\x7b\"steps\": [\"Warm up\", \"Main set\"\x7d").data
    ∧ strategy3 (("\x7b\"steps\": [\"Warm up\", \"Main set").data) = none :=
  ⟨c1_candidate_eval, c1_strategy3_none⟩

theorem c1_pre_eval :
    fixPreprocess (("\x7b\"steps\": [\"Warm up\", \"Main set").data)
      = ("\x7b\"steps\": [\"Warm up\", \"Main set").data := by
  simp [fixPreprocess, pyStrip, dropRightWhile, stripFenceStart, stripFenceEnd,
    endsFence, endsFenceNl, pyWs, btChar, List.dropWhile, String.data]

theorem c1_loads_none :
    json_loads (String.mk (("\x7b\"steps\": [\"Warm up\", \"Main set").data)) = none := by
  simp [json_loads, pVal, pMembers, pElems, pStr, pStrGo, pEsc, pUEsc, pNum,
    jsonWs, numStop, digitsVal, dictInsert, hexVal, escCode, List.dropWhile,
    List.takeWhile, String.data]

theorem c1_tail_eval :
    (("\x7b\"steps\": [\"Warm up\", \"Main set").data).dropWhile (fun c => c ≠ '\x7b')
      = ("\x7b\"steps\": [\"Warm up\", \"Main set").data := by
  simp [List.dropWhile]

theorem c1_strategy4_eval :
    strategy4 (("\x7b\"steps\": [\"Warm up\", \"Main set").data)
      = some (json_dumps (fallbackObj ["steps\": [\"Warm up\", \"Main set"])) := by
  simp [strategy4, salvageLines, splitlinesPy, stripQuoteComma, pyStrip,
    dropRightWhile, pyWs, stripFenceStart, stripFenceEnd, endsFence, endsFenceNl,
    btChar, List.filter, List.dropWhile, String.data, String.length, List.length]

/-- **C1 (amended)** — On the truncated input
`{"steps": ["Warm up", "Main set` the heuristic brace/quote repair
(strategy 3) fails, and it is the *line-salvage fallback* (strategy 4) that
makes `fix_json` succeed: the result is the fallback object whose `steps`
list holds the single mangled line `steps": ["Warm up", "Main set` (the
leading `{` and the line's surrounding quote stripped, the fragments not
separated), together with empty `assumptions` and `success_criteria`; that
output parses back to exactly this fallback object. -/
theorem C1_truncated_input_salvaged :
    fix_json "\x7b\"steps\": [\"Warm up\", \"Main set"
      = some (json_dumps (fallbackObj ["steps\": [\"Warm up\", \"Main set"]))
    ∧ json_loads (json_dumps (fallbackObj ["steps\": [\"Warm up\", \"Main set"]))
      = some (fallbackObj ["steps\": [\"Warm up\", \"Main set"]) := by
  refine ⟨?_, loads_dumps _ (wf_fallbackObj _)⟩
  have hs1 : strategy1 (("\x7b\"steps\": [\"Warm up\", \"Main set").data) = none := by
    rw [strategy1, c1_loads_none]
    rfl
  have hs2 : strategy2 (("\x7b\"steps\": [\"Warm up\", \"Main set").data) = none := by
    rw [strategy2]
    rw [show findBraceEnd (("\x7b\"steps\": [\"Warm up\", \"Main set").data) 0 0 = none from by
      simp [findBraceEnd]]
  have hs23 : strategy23 (("\x7b\"steps\": [\"Warm up\", \"Main set").data) = none := by
    rw [strategy23, c1_tail_eval]
    rw [if_neg (by simp [String.data])]
    rw [hs2, c1_strategy3_none]
    rfl
  rw [fix_json, c1_pre_eval]
  rw [hs1, hs23, c1_strategy4_eval]
  rfl

/-! ## C4: the depth scan ignores string context -/

theorem c4_prefix_loads :
    json_loads "\x7b\"a\": \"\x7d\"\x7d" = some (Json.obj [("a", Json.str "\x7d")]) := by
  simp [json_loads, pVal, pMembers, pElems, pStr, pStrGo, pEsc, pUEsc, pNum,
    jsonWs, numStop, digitsVal, dictInsert, hexVal, escCode, List.dropWhile,
    List.takeWhile, String.data]

theorem c4_full_fix :
    fix_json "\x7b\"a\": \"\x7d\"\x7d and more prose after it"
      = some (json_dumps (fallbackObj ["a\": \"\x7d\"\x7d and more prose after it"])) := by
  have hpre : fixPreprocess (("\x7b\"a\": \"\x7d\"\x7d and more prose after it").data)
      = ("\x7b\"a\": \"\x7d\"\x7d and more prose after it").data := by
    simp [fixPreprocess, pyStrip, dropRightWhile, stripFenceStart, stripFenceEnd,
      endsFence, endsFenceNl, pyWs, btChar, List.dropWhile, String.data]
  have hloads : json_loads (String.mk (("\x7b\"a\": \"\x7d\"\x7d and more prose after it").data))
      = none := by
    simp [json_loads, pVal, pMembers, pElems, pStr, pStrGo, pEsc, pUEsc, pNum,
      jsonWs, numStop, digitsVal, dictInsert, hexVal, escCode, List.dropWhile,
      List.takeWhile, String.data]
  have hs1 : strategy1 (("\x7b\"a\": \"\x7d\"\x7d and more prose after it").data) = none := by
    rw [strategy1, hloads]
    rfl
  have htail : (("\x7b\"a\": \"\x7d\"\x7d and more prose after it").data).dropWhile
      (fun c => c ≠ '\x7b') = ("\x7b\"a\": \"\x7d\"\x7d and more prose after it").data := by
    simp [List.dropWhile]
  have hs2 : strategy2 (("\x7b\"a\": \"\x7d\"\x7d and more prose after it").data) = none := by
    rw [strategy2]
    rw [show findBraceEnd (("\x7b\"a\": \"\x7d\"\x7d and more prose after it").data) 0 0
        = some 7 from by simp [findBraceEnd]]
    simp only []
    rw [show ((("\x7b\"a\": \"\x7d\"\x7d and more prose after it").data).take (7 + 1))
        = ("\x7b\"a\": \"\x7d").data from by simp [String.data]]
    rw [show json_loads (String.mk (("\x7b\"a\": \"\x7d").data)) = none from by
      simp [json_loads, pVal, pMembers, pElems, pStr, pStrGo, pEsc, pUEsc, pNum,
        jsonWs, numStop, digitsVal, dictInsert, hexVal, escCode, List.dropWhile,
        List.takeWhile, String.data]]
    rfl
  have hcand : strategy3Candidate (("\x7b\"a\": \"\x7d\"\x7d and more prose after it").data)
      = ("\x7b\"a\": \"\x7d\"\x7d and more prose after it").data := by
    simp [strategy3Candidate, pyRstrip, dropRightWhile, stripTicksEnd, endsFence,
      endsFenceNl, pyWs, btChar, closeOpenQuotes, countUnescapedQuotes,
      stripTrailingCommas, stripTCGo, List.filter, List.dropWhile, String.data]
  have hs3 : strategy3 (("\x7b\"a\": \"\x7d\"\x7d and more prose after it").data) = none := by
    rw [strategy3, hcand, hloads]
    rfl
  have hs23 : strategy23 (("\x7b\"a\": \"\x7d\"\x7d and more prose after it").data) = none := by
    rw [strategy23, htail]
    rw [if_neg (by simp [String.data])]
    rw [hs2, hs3]
    rfl
  have hs4 : strategy4 (("\x7b\"a\": \"\x7d\"\x7d and more prose after it").data)
      = some (json_dumps (fallbackObj ["a\": \"\x7d\"\x7d and more prose after it"])) := by
    simp [strategy4, salvageLines, splitlinesPy, stripQuoteComma, pyStrip,
      dropRightWhile, pyWs, stripFenceStart, stripFenceEnd, endsFence, endsFenceNl,
      btChar, List.filter, List.dropWhile, String.data, String.length, List.length]
  rw [fix_json, hpre]
  rw [hs1, hs23, hs4]
  rfl

/-- **C4 (counterexample)** — The input
`{"a": "}"} and more prose after it` is a valid JSON object followed by
trailing prose, yet `fix_json` does not extract that object: the depth scan
counts the `}` inside the string literal, cutting the candidate short, and
the eventual result is the strategy-4 fallback object built from the mangled
line — not the object the prose followed.  So the trailing prose does change
the result, contradicting the universal claim. -/
theorem C4_prose_counterexample :
    json_loads "\x7b\"a\": \"\x7d\"\x7d" = some (Json.obj [("a", Json.str "\x7d")])
    ∧ fix_json "\x7b\"a\": \"\x7d\"\x7d and more prose after it"
        = some (json_dumps (fallbackObj ["a\": \"\x7d\"\x7d and more prose after it"]))
    ∧ json_loads (json_dumps (fallbackObj ["a\": \"\x7d\"\x7d and more prose after it"]))
        = some (fallbackObj ["a\": \"\x7d\"\x7d and more prose after it"])
    ∧ fallbackObj ["a\": \"\x7d\"\x7d and more prose after it"]
        ≠ Json.obj [("a", Json.str "\x7d")] :=
  ⟨c4_prefix_loads, c4_full_fix, loads_dumps _ (wf_fallbackObj _), by simp [fallbackObj]⟩

/-- Witness instantiating `C4_brace_balanced_extract` at
`{"a": 1} and some trailing prose`. -/
theorem C4_brace_balanced_extract_witness :
    fix_json "\x7b\"a\": 1\x7d and some trailing prose"
      = some (json_dumps (Json.obj [("a", Json.num 1)]))
    ∧ json_loads (json_dumps (Json.obj [("a", Json.num 1)]))
      = some (Json.obj [("a", Json.num 1)]) :=
  C4_brace_balanced_extract "\x7b\"a\": 1\x7d and some trailing prose"
    (("\x7b\"a\": 1\x7d").data) ((" and some trailing prose").data)
    (Json.obj [("a", Json.num 1)])
    (by decide)
    (by simp [json_loads, pVal, pMembers, pElems, pStr, pStrGo, pEsc, pUEsc, pNum,
      jsonWs, numStop, digitsVal, dictInsert, hexVal, escCode, List.dropWhile,
      List.takeWhile, String.data])
    (by decide)
    (by simp [fixPreprocess, pyStrip, dropRightWhile, stripFenceStart, stripFenceEnd,
      endsFence, endsFenceNl, pyWs, btChar, List.dropWhile, String.data])
    (by simp [json_loads, pVal, pMembers, pElems, pStr, pStrGo, pEsc, pUEsc, pNum,
      jsonWs, numStop, digitsVal, dictInsert, hexVal, escCode, List.dropWhile,
      List.takeWhile, String.data])
    (by simp [findBraceEnd, String.data])

/-! ## C5: the line-salvage fallback and when it is actually reached -/

theorem dropWhile_dropWhile (p : Char → Bool) (l : List Char) :
    (l.dropWhile p).dropWhile p = l.dropWhile p := by
  induction l with
  | nil => rfl
  | cons a t ih =>
    by_cases h : p a
    · simp [List.dropWhile_cons, h, ih]
    · simp [List.dropWhile_cons, h]

theorem pyStrip_sublist (l : List Char) : List.Sublist (pyStrip l) l := by
  rw [pyStrip, dropRightWhile]
  have h1 : List.Sublist ((l.dropWhile pyWs).reverse.dropWhile pyWs)
      ((l.dropWhile pyWs).reverse) := List.dropWhile_sublist _
  have h2 := h1.reverse
  rw [List.reverse_reverse] at h2
  exact h2.trans (List.dropWhile_sublist _)

theorem pyStrip_idem (l : List Char) : pyStrip (pyStrip l) = pyStrip l := by
  have hm : (l.dropWhile pyWs).dropWhile pyWs = l.dropWhile pyWs :=
    dropWhile_dropWhile pyWs l
  have hpre : ((l.dropWhile pyWs).reverse.dropWhile pyWs).reverse <+: l.dropWhile pyWs := by
    have h0 : (l.dropWhile pyWs).reverse.dropWhile pyWs <:+ (l.dropWhile pyWs).reverse :=
      List.dropWhile_suffix _
    have h1 := List.reverse_prefix.mpr h0
    rw [List.reverse_reverse] at h1
    exact h1
  have hstep1 : (pyStrip l).dropWhile pyWs = pyStrip l := by
    rw [pyStrip, dropRightWhile]
    obtain ⟨t, ht⟩ := hpre
    cases hc : ((l.dropWhile pyWs).reverse.dropWhile pyWs).reverse with
    | nil => rfl
    | cons a rt =>
      rw [List.dropWhile_cons]
      have hpa : pyWs a = false := by
        rw [hc] at ht
        by_contra hpa
        simp only [Bool.not_eq_false] at hpa
        rw [← ht, List.cons_append, List.dropWhile_cons, hpa, if_pos rfl] at hm
        have hle := (List.dropWhile_sublist (l := rt ++ t) pyWs).length_le
        have h2 := congrArg List.length hm
        simp only [List.length_cons, List.length_append] at h2 hle
        omega
      rw [hpa]
      simp
  rw [pyStrip, hstep1, pyStrip, dropRightWhile, dropRightWhile]
  rw [List.reverse_reverse]
  rw [dropWhile_dropWhile]

theorem stripFenceStart_no_bt (m : List Char) (h : btChar ∉ m) : stripFenceStart m = m := by
  rw [stripFenceStart, if_neg]
  intro heq
  exact h (List.take_subset 3 m (by rw [heq]; simp))

theorem endsFence_no_bt (m : List Char) (h : btChar ∉ m) : endsFence m = false := by
  rw [endsFence]
  simp only [decide_eq_false_iff_not]
  intro heq
  exact h (List.mem_reverse.mp (List.take_subset 3 m.reverse (by rw [heq]; simp)))

theorem endsFenceNl_no_bt (m : List Char) (h : btChar ∉ m) : endsFenceNl m = false := by
  rw [endsFenceNl]
  simp only [decide_eq_false_iff_not]
  intro heq
  exact h (List.mem_reverse.mp (List.take_subset 4 m.reverse (by rw [heq]; simp)))

theorem stripFenceEnd_no_bt (m : List Char) (h : btChar ∉ m) : stripFenceEnd m = m := by
  rw [stripFenceEnd]
  rw [if_neg (by rw [endsFence_no_bt m h]; simp)]
  rw [if_neg (by rw [endsFenceNl_no_bt m h]; simp)]

theorem fixPreprocess_no_bt (l : List Char) (h : btChar ∉ l) :
    fixPreprocess l = pyStrip l := by
  rw [fixPreprocess]
  rw [stripFenceStart_no_bt _ (fun hmem => h ((pyStrip_sublist l).subset hmem))]
  rw [stripFenceEnd_no_bt _ (fun hmem => h ((pyStrip_sublist l).subset hmem))]
  exact pyStrip_idem l

theorem c5ce_loads :
    json_loads (String.mk (("[\"a very long string here\"]").data))
      = some (Json.arr [Json.str "a very long string here"]) := by
  simp [json_loads, pVal, pMembers, pElems, pStr, pStrGo, pEsc, pUEsc, pNum,
    jsonWs, numStop, digitsVal, dictInsert, hexVal, escCode, List.dropWhile,
    List.takeWhile, String.data]

/-- **C5 (counterexample)** — The input `["a very long string here"]`
contains no `{` at all and its single stripped line is longer than 10
characters, so it is in the claim's stated domain; but `fix_json` never
reaches the line-salvage fallback on it: the text is itself valid JSON, so
strategy 1 returns the re-serialized *array*, not the fallback object with
the line as `steps`. -/
theorem C5_no_brace_counterexample :
    '\x7b' ∉ ("[\"a very long string here\"]").data
    ∧ (salvageLines (pyStrip ("[\"a very long string here\"]").data)).filter
        (fun l => 10 < l.length) = ["[\"a very long string here\"]"]
    ∧ fix_json "[\"a very long string here\"]"
        = some (json_dumps (Json.arr [Json.str "a very long string here"]))
    ∧ json_loads (json_dumps (Json.arr [Json.str "a very long string here"]))
        = some (Json.arr [Json.str "a very long string here"])
    ∧ Json.arr [Json.str "a very long string here"]
        ≠ fallbackObj ["[\"a very long string here\"]"] := by
  refine ⟨by decide, ?_, ?_, loads_dumps _ (by simp [wfJ, wfL]), by simp [fallbackObj]⟩
  · simp [salvageLines, splitlinesPy, stripQuoteComma, pyStrip, dropRightWhile, pyWs,
      List.filter, List.dropWhile, String.data, String.length, List.length]
  · have hpre : fixPreprocess (("[\"a very long string here\"]").data)
        = ("[\"a very long string here\"]").data := by
      simp [fixPreprocess, pyStrip, dropRightWhile, stripFenceStart, stripFenceEnd,
        endsFence, endsFenceNl, pyWs, btChar, List.dropWhile, String.data]
    rw [fix_json, hpre, strategy1, c5ce_loads]
    rfl

/-- **C5 (amended)** — For input text with no `{` character and no backtick,
*and which is not itself parseable JSON after trimming*, `fix_json` reaches
the line-salvage fallback: it returns the serialized fallback object whose
`steps` are exactly the non-empty trimmed lines (stripped of surrounding
quote/comma characters) longer than 10 characters, in order, with empty
`assumptions` and `success_criteria`; that output parses back to exactly
this fallback object. -/
theorem C5_line_salvage (s : String)
    (hnb : '\x7b' ∉ s.data)
    (hbt : btChar ∉ s.data)
    (hparse : json_loads (String.mk (pyStrip s.data)) = none)
    (hsteps : (salvageLines (pyStrip s.data)).filter (fun l => 10 < l.length) ≠ []) :
    fix_json s = some (json_dumps (fallbackObj
        ((salvageLines (pyStrip s.data)).filter (fun l => 10 < l.length))))
    ∧ json_loads (json_dumps (fallbackObj
        ((salvageLines (pyStrip s.data)).filter (fun l => 10 < l.length))))
      = some (fallbackObj
        ((salvageLines (pyStrip s.data)).filter (fun l => 10 < l.length))) := by
  refine ⟨?_, loads_dumps _ (wf_fallbackObj _)⟩
  have hpre : fixPreprocess s.data = pyStrip s.data := fixPreprocess_no_bt _ hbt
  have hnb' : '\x7b' ∉ pyStrip s.data := fun hm => hnb ((pyStrip_sublist _).subset hm)
  have hbt' : btChar ∉ pyStrip s.data := fun hm => hbt ((pyStrip_sublist _).subset hm)
  have hs1 : strategy1 (pyStrip s.data) = none := by
    rw [strategy1, hparse]
    rfl
  have hdw : (pyStrip s.data).dropWhile (fun c => c ≠ '\x7b') = [] := by
    rw [List.dropWhile_eq_nil_iff]
    intro x hx
    have hne : x ≠ '\x7b' := fun heq => hnb' (heq ▸ hx)
    simp [hne]
  have hs23 : strategy23 (pyStrip s.data) = none := by
    rw [strategy23, if_pos hdw]
  have hs4 : strategy4 (pyStrip s.data)
      = some (json_dumps (fallbackObj
          ((salvageLines (pyStrip s.data)).filter (fun l => 10 < l.length)))) := by
    rw [strategy4]
    rw [stripFenceStart_no_bt _ hbt', pyStrip_idem]
    rw [stripFenceEnd_no_bt _ hbt', pyStrip_idem]
    rw [if_neg (fun hh => hnb' (List.mem_of_mem_head? (Option.mem_def.mpr hh)))]
    rw [if_pos hsteps]
  rw [fix_json, hpre, hs1, hs23, hs4]
  rfl

/-- Witness instantiating `C5_line_salvage` at the three-line example from
the claim. -/
theorem C5_line_salvage_witness :
    fix_json "Do 10 pushups\nRest 30 seconds\nRepeat 3 times"
      = some (json_dumps (fallbackObj
          ["Do 10 pushups", "Rest 30 seconds", "Repeat 3 times"]))
    ∧ json_loads (json_dumps (fallbackObj
          ["Do 10 pushups", "Rest 30 seconds", "Repeat 3 times"]))
      = some (fallbackObj ["Do 10 pushups", "Rest 30 seconds", "Repeat 3 times"]) := by
  have h := C5_line_salvage "Do 10 pushups\nRest 30 seconds\nRepeat 3 times"
    (by decide) (by decide)
    (by simp [pyStrip, dropRightWhile, pyWs, List.dropWhile, json_loads, pVal,
      pMembers, pElems, pStr, pStrGo, pEsc, pUEsc, pNum, jsonWs, numStop, digitsVal,
      dictInsert, hexVal, escCode, List.takeWhile, String.data])
    (by simp [salvageLines, splitlinesPy, stripQuoteComma, pyStrip, dropRightWhile,
      pyWs, List.filter, List.dropWhile, String.data, String.length, List.length])
  rw [show (salvageLines (pyStrip ("Do 10 pushups\nRest 30 seconds\nRepeat 3 times").data)).filter
      (fun l => 10 < l.length) = ["Do 10 pushups", "Rest 30 seconds", "Repeat 3 times"] from by
    simp [salvageLines, splitlinesPy, stripQuoteComma, pyStrip, dropRightWhile, pyWs,
      List.filter, List.dropWhile, String.data, String.length, List.length]] at h
  exact h

/-! ## C3: the mock gate appears in both stages -/

theorem chain1Body_modelCalls (prompt t : String) (mc : Nat) (writeOk : Bool) :
    (chain1Body prompt t mc writeOk).modelCalls = mc := by
  rw [chain1Body]
  split
  · rfl
  · split
    · split
      · rfl
      · rfl
    · rfl

/-- **C3 (counterexample)** — With the mock text loaded, the *execution*
stage is also short-circuited: `chain2_execution` returns the mock text as
the guide and performs no completion call at all, contradicting the claim
that only the planning stage is re-routed and that execution still invokes
the collaborator.  (Here the collaborator oracle is a raising call, so any
invocation would have errored.) -/
theorem C3_mock_counterexample :
    (chain2_execution (some "mock guide") (.error ()) "req" Json.null).modelCalls = 0
    ∧ (chain2_execution (some "mock guide") (.error ()) "req" Json.null).result
        = .ok "mock guide" :=
  ⟨rfl, rfl⟩

/-- **C3 (amended)** — When the mock text is loaded and non-empty, *both*
stages are re-routed: planning processes the mock text without calling the
collaborator, and execution likewise returns the mock text as the guide with
no collaborator call. -/
theorem C3_mock_both_stages (m : String) (hm : truthyS (some m) = true)
    (model1 model2 : Except Unit CompletionResponse) (userRequest : String)
    (writeOk : Bool) (plan : Json) :
    chain1_planning (some m) model1 userRequest writeOk
      = chain1Body (PLANNING_PROMPT.replace "{user_request}" userRequest) m 0 writeOk
    ∧ (chain1_planning (some m) model1 userRequest writeOk).modelCalls = 0
    ∧ (chain2_execution (some m) model2 userRequest plan).result = .ok m
    ∧ (chain2_execution (some m) model2 userRequest plan).modelCalls = 0 := by
  have h1 : chain1_planning (some m) model1 userRequest writeOk
      = chain1Body (PLANNING_PROMPT.replace "{user_request}" userRequest) m 0 writeOk := by
    rw [chain1_planning.eq_def, if_pos hm]
    rfl
  refine ⟨h1, ?_, ?_, ?_⟩
  · rw [h1, chain1Body_modelCalls]
  · rw [chain2_execution.eq_def, if_pos hm]
    rfl
  · rw [chain2_execution.eq_def, if_pos hm]

/-- Witness instantiating `C3_mock_both_stages` at the mock text
`mock plan text`. -/
theorem C3_mock_both_stages_witness :
    chain1_planning (some "mock plan text") (.error ()) "req" true
      = chain1Body (PLANNING_PROMPT.replace "{user_request}" "req") "mock plan text" 0 true
    ∧ (chain1_planning (some "mock plan text") (.error ()) "req" true).modelCalls = 0
    ∧ (chain2_execution (some "mock plan text") (.error ()) "req" Json.null).result
        = .ok "mock plan text"
    ∧ (chain2_execution (some "mock plan text") (.error ()) "req" Json.null).modelCalls = 0 :=
  C3_mock_both_stages "mock plan text" (by decide) (.error ()) (.error ()) "req" true Json.null

/-! ## C6: empty model output -/

theorem collectParts_all_empty (ps : List RespPart)
    (h : ps.all (fun p => !truthyS p.text) = true) : collectParts ps = [] := by
  induction ps with
  | nil => rfl
  | cons p t ih =>
    rw [List.all_cons, Bool.and_eq_true] at h
    rw [collectParts, List.filterMap_cons]
    have hp : truthyS p.text = false := by
      have := h.1
      simp only [Bool.not_eq_true'] at this
      exact this
    rw [hp]
    exact ih h.2

theorem candTexts_empty (c : RespCandidate) (h : candNoText c = true) :
    candTexts c = [] := by
  rw [candNoText] at h
  rw [candTexts]
  cases hc : c.content with
  | none =>
    rw [hc] at h
    simp only [Bool.and_eq_true, Bool.not_eq_true'] at h
    simp only []
    rw [h.1]
    rfl
  | some co =>
    rw [hc] at h
    simp only [Bool.and_eq_true, Bool.not_eq_true'] at h
    simp only []
    by_cases ht : truthyParts co.parts = true
    · rw [if_pos ht]
      exact collectParts_all_empty _ h.2
    · rw [if_neg ht, h.1]
      rfl

theorem extract_none_of_noDerivable (r : CompletionResponse)
    (h : noDerivableText r = true) : extract_text_from_response r = none := by
  rw [noDerivableText] at h
  simp only [Bool.and_eq_true, Bool.not_eq_true'] at h
  obtain ⟨⟨htext, hres⟩, hcands⟩ := h
  have hcand : candidateParts r = [] := by
    rw [candidateParts]
    cases hc : r.candidates with
    | none => rfl
    | some cands =>
      rw [hc] at hcands
      simp only []
      by_cases he : cands.isEmpty = true
      · rw [if_pos he]
      · rw [if_neg he]
        have hmap : cands.map candTexts = cands.map (fun _ => []) := by
          apply List.map_congr_left
          intro c hcmem
          exact candTexts_empty c (by
            rw [List.all_eq_true] at hcands
            exact hcands c hcmem)
        rw [hmap]
        simp
  rw [extract_text_from_response.eq_def, htext]
  simp only [Bool.false_eq_true, if_false]
  cases hr : r.result with
  | none =>
    simp only []
    rw [hcand]
    rfl
  | some res =>
    rw [hr] at hres
    simp only []
    by_cases ht : truthyParts res.parts = true
    · rw [if_pos ht, collectParts_all_empty _ hres]
      rfl
    · rw [if_neg ht, hcand]
      rfl

/-- **C6** — For a response from which no non-empty text is derivable (the
direct text attribute, the result parts and the candidates all absent or
empty), extraction returns absence — never the empty string — and the
planning stage then fails with the empty-output error before attempting any
JSON parse. -/
theorem C6_empty_output_before_parse (r : CompletionResponse)
    (h : noDerivableText r = true) (u : String) (w : Bool) :
    extract_text_from_response r = none
    ∧ (chain1_planning none (.ok r) u w).result = .error .emptyOutput
    ∧ (chain1_planning none (.ok r) u w).loadsAttempts = [] := by
  have he := extract_none_of_noDerivable r h
  refine ⟨he, ?_, ?_⟩ <;>
  · rw [chain1_planning.eq_def]
    rw [if_neg (by simp [truthyS])]
    simp only []
    rw [he]

/-- Witness instantiating `C6_empty_output_before_parse` at the fully
absent response. -/
theorem C6_empty_output_before_parse_witness :
    extract_text_from_response ⟨none, none, none⟩ = none
    ∧ (chain1_planning none (.ok ⟨none, none, none⟩) "req" true).result
        = .error .emptyOutput
    ∧ (chain1_planning none (.ok ⟨none, none, none⟩) "req" true).loadsAttempts = [] :=
  C6_empty_output_before_parse ⟨none, none, none⟩ (by decide) "req" true

/-! ## C7: totality — failure is the explicit absence value -/

theorem truthyS_of_ne (t : String) (h : t ≠ "") : truthyS (some t) = true := by
  have hb : ¬ (t.isEmpty = true) := fun hb => h ((String.isEmpty_iff t).mp hb)
  simp [truthyS, hb]


theorem orElse_none_iff {α : Type} (a : Option α) (f : Unit → Option α) :
    a.orElse f = none ↔ a = none ∧ f () = none := by
  cases a <;> simp [Option.orElse]

/-- **C7** — `fix_json` and `_extract_text_from_response` never raise: in the
embedding every internal failure is an explicit absence, and the only way the
whole call yields absence is that every recovery strategy (respectively every
extraction source) itself yielded absence — no path escapes by exception. -/
theorem C7_never_raises (s : String) (r : CompletionResponse) :
    (fix_json s = none ↔
      strategy1 (fixPreprocess s.data) = none
      ∧ strategy23 (fixPreprocess s.data) = none
      ∧ strategy4 (fixPreprocess s.data) = none
      ∧ strategy5 (fixPreprocess s.data) = none
      ∧ strategy6 (fixPreprocess s.data) = none)
    ∧ (extract_text_from_response r = none ↔
        truthyS r.text = false
        ∧ (match r.result with
           | some res => if truthyParts res.parts then collectParts (res.parts.getD [])
                         else candidateParts r
           | none => candidateParts r) = []) := by
  constructor
  · rw [fix_json]
    rw [orElse_none_iff, orElse_none_iff, orElse_none_iff, orElse_none_iff]
  · rw [extract_text_from_response.eq_def]
    by_cases htext : truthyS r.text = true
    · rw [if_pos htext]
      constructor
      · intro hn
        cases hx : r.text with
        | none => rw [hx] at htext; exact absurd htext (by simp [truthyS])
        | some x => rw [hx] at hn; exact absurd hn (by simp)
      · intro hc
        rw [htext] at hc
        exact absurd hc.1 (by simp)
    · rw [if_neg htext]
      simp only [Bool.not_eq_true] at htext
      constructor
      · intro hn
        refine ⟨htext, ?_⟩
        by_cases hp : (match r.result with
           | some res => if truthyParts res.parts then collectParts (res.parts.getD [])
                         else candidateParts r
           | none => candidateParts r).isEmpty = true
        · exact List.isEmpty_iff.mp hp
        · rw [if_neg hp] at hn
          exact absurd hn (by simp)
      · intro hc
        rw [if_pos (List.isEmpty_iff.mpr hc.2)]

theorem fix_json_xyz : fix_json "xyz" = none := by
  have hpre : fixPreprocess (("xyz").data) = ("xyz").data := by
    simp [fixPreprocess, pyStrip, dropRightWhile, stripFenceStart, stripFenceEnd,
      endsFence, endsFenceNl, pyWs, btChar, List.dropWhile, String.data]
  have h1 : strategy1 (("xyz").data) = none := by
    rw [strategy1]
    rw [show json_loads (String.mk (("xyz").data)) = none from by
      simp [json_loads, pVal, pMembers, pElems, pStr, pStrGo, pEsc, pUEsc, pNum,
        jsonWs, numStop, digitsVal, dictInsert, hexVal, escCode, List.dropWhile,
        List.takeWhile, String.data]]
    rfl
  have h23 : strategy23 (("xyz").data) = none := by
    rw [strategy23, if_pos (by simp [List.dropWhile, String.data])]
  have h4 : strategy4 (("xyz").data) = none := by
    simp [strategy4, salvageLines, splitlinesPy, stripQuoteComma, pyStrip,
      dropRightWhile, pyWs, stripFenceStart, stripFenceEnd, endsFence, endsFenceNl,
      btChar, List.filter, List.dropWhile, String.data, String.length, List.length]
  have h5 : strategy5 (("xyz").data) = none := by
    simp [strategy5, lastRBrace, List.dropWhile, List.findIdx?, String.data]
  have h6 : strategy6 (("xyz").data) = none := by
    simp [strategy6, hasSubstr, List.isPrefixOf, String.data]
  rw [fix_json, hpre, h1, h23, h4, h5, h6]
  rfl

/-- Witness exercising `C7_never_raises` at a concrete input on which every
strategy fails, and at the fully absent response. -/
theorem C7_never_raises_witness :
    (strategy1 (fixPreprocess ("xyz").data) = none
      ∧ strategy23 (fixPreprocess ("xyz").data) = none
      ∧ strategy4 (fixPreprocess ("xyz").data) = none
      ∧ strategy5 (fixPreprocess ("xyz").data) = none
      ∧ strategy6 (fixPreprocess ("xyz").data) = none)
    ∧ extract_text_from_response ⟨none, none, none⟩ = none :=
  ⟨(C7_never_raises "xyz" ⟨none, none, none⟩).1.mp fix_json_xyz,
   (C7_never_raises "xyz" ⟨none, none, none⟩).2.mpr ⟨rfl, rfl⟩⟩

/-! ## C8: the debug dump precedes every planning failure -/

theorem chain1Body_c8 (prompt t : String) (mc : Nat) (w w' : Bool) :
    (chain1Body prompt t mc w).result = (chain1Body prompt t mc w').result
    ∧ (chain1Body prompt t mc w).dumpAttempts = (chain1Body prompt t mc w').dumpAttempts
    ∧ ∀ e, (chain1Body prompt t mc w).result = .error e →
        (chain1Body prompt t mc w).dumpAttempts ≠ []
        ∧ ∀ a ∈ (chain1Body prompt t mc w).dumpAttempts,
            a = (chain1Body prompt t mc w).raw.getD "" := by
  simp only [chain1Body]
  cases hj : json_loads t with
  | some v =>
    simp only []
    exact ⟨trivial, trivial, fun e he => absurd he (by simp)⟩
  | none =>
    simp only []
    cases hf : fix_json t with
    | none =>
      simp only []
      refine ⟨trivial, trivial, fun e he => ⟨by simp, ?_⟩⟩
      intro a ha
      simp only [List.mem_cons, List.not_mem_nil, or_false, or_self] at ha
      simp [ha]
    | some fixedTxt =>
      simp only []
      cases hj2 : json_loads fixedTxt with
      | some v =>
        simp only []
        exact ⟨trivial, trivial, fun e he => absurd he (by simp)⟩
      | none =>
        simp only []
        refine ⟨trivial, trivial, fun e he => ⟨by simp, ?_⟩⟩
        intro a ha
        simp only [List.mem_cons, List.not_mem_nil, or_false, or_self] at ha
        simp [ha]

/-- **C8** — The planning stage's observable outcome does not depend on
whether the debug-dump write succeeds (the write failure is swallowed), and
every hard failure raised out of the stage is preceded by dump attempts of
the raw extracted text (or of the empty string when no text was ever
extracted). -/
theorem C8_dump_precedes_failure (mock : Option String)
    (model : Except Unit CompletionResponse) (u : String) (w w' : Bool) :
    (chain1_planning mock model u w).result = (chain1_planning mock model u w').result
    ∧ (chain1_planning mock model u w).dumpAttempts
        = (chain1_planning mock model u w').dumpAttempts
    ∧ ∀ e, (chain1_planning mock model u w).result = .error e →
        (chain1_planning mock model u w).dumpAttempts ≠ []
        ∧ ∀ a ∈ (chain1_planning mock model u w).dumpAttempts,
            a = (chain1_planning mock model u w).raw.getD "" := by
  rw [chain1_planning.eq_def, chain1_planning.eq_def]
  by_cases hm : truthyS mock = true
  · rw [if_pos hm, if_pos hm]
    exact chain1Body_c8 _ _ 0 w w'
  · rw [if_neg hm, if_neg hm]
    cases model with
    | error u0 =>
      simp only []
      refine ⟨trivial, trivial, fun e he => ⟨by simp, ?_⟩⟩
      intro a ha
      simp only [List.mem_singleton] at ha
      simp [ha]
    | ok resp =>
      simp only []
      cases hx : extract_text_from_response resp with
      | none =>
        simp only []
        refine ⟨trivial, trivial, fun e he => ⟨by simp, ?_⟩⟩
        intro a ha
        simp only [List.mem_singleton] at ha
        simp [ha]
      | some t =>
        simp only []
        exact chain1Body_c8 _ _ 1 w w'

/-- Witness instantiating `C8_dump_precedes_failure` on a planning run that
fails (mock text `xyz`: unparseable and unrepairable). -/
theorem C8_dump_precedes_failure_witness :
    (chain1_planning (some "xyz") (.error ()) "req" true).result
      = (chain1_planning (some "xyz") (.error ()) "req" false).result
    ∧ (chain1_planning (some "xyz") (.error ()) "req" true).dumpAttempts ≠ []
    ∧ ∀ a ∈ (chain1_planning (some "xyz") (.error ()) "req" true).dumpAttempts,
        a = (chain1_planning (some "xyz") (.error ()) "req" true).raw.getD "" := by
  have h := C8_dump_precedes_failure (some "xyz") (.error ()) "req" true false
  have herr : (chain1_planning (some "xyz") (.error ()) "req" true).result
      = .error .repairFailed := by
    rw [chain1_planning.eq_def, if_pos (truthyS_of_ne "xyz" (by decide))]
    simp only [Option.getD_some]
    rw [chain1Body]
    rw [show json_loads "xyz" = none from by
      simp [json_loads, pVal, pMembers, pElems, pStr, pStrGo, pEsc, pUEsc, pNum,
        jsonWs, numStop, digitsVal, dictInsert, hexVal, escCode, List.dropWhile,
        List.takeWhile, String.data]]
    rw [fix_json_xyz]
  exact ⟨h.1, (h.2.2 .repairFailed herr).1, (h.2.2 .repairFailed herr).2⟩

/-! ## C10: no Plan-shape validation -/

theorem json_loads_empty : json_loads "" = none := rfl

theorem chain2_fields (mock : Option String) (model : Except Unit CompletionResponse)
    (u : String) (plan : Json) :
    (chain2_execution mock model u plan).planStr = json_dumps plan
    ∧ (chain2_execution mock model u plan).prompt
        = (EXECUTION_PROMPT.replace "{user_request}" u).replace "{plan}" (json_dumps plan) := by
  rw [chain2_execution.eq_def]
  split
  · exact ⟨rfl, rfl⟩
  · split
    · exact ⟨rfl, rfl⟩
    · split <;> exact ⟨rfl, rfl⟩

/-- **C10** — No Plan-shape validation happens anywhere: whatever JSON value
the planning text parses to — object of any shape, array, number — is
returned as the plan, and the execution prompt embeds its re-serialization
unchanged by literal placeholder replacement. -/
theorem C10_no_plan_validation (t : String) (v : Json) (h : json_loads t = some v)
    (model1 model2 : Except Unit CompletionResponse) (u : String) (w : Bool) :
    (chain1_planning (some t) model1 u w).result = .ok v
    ∧ (chain2_execution (some t) model2 u v).planStr = json_dumps v
    ∧ (chain2_execution (some t) model2 u v).prompt
        = (EXECUTION_PROMPT.replace "{user_request}" u).replace "{plan}" (json_dumps v) := by
  have hne : t ≠ "" := by
    intro he
    subst he
    rw [json_loads_empty] at h
    cases h
  refine ⟨?_, (chain2_fields _ _ _ _).1, (chain2_fields _ _ _ _).2⟩
  rw [chain1_planning.eq_def, if_pos (truthyS_of_ne t hne)]
  simp only [Option.getD_some]
  rw [chain1Body, h]

/-- Witness instantiating `C10_no_plan_validation` at a parsed value that is
an array, not a Plan-shaped object. -/
theorem C10_no_plan_validation_witness :
    (chain1_planning (some "[1, 2]") (.error ()) "req" true).result
      = .ok (Json.arr [Json.num 1, Json.num 2])
    ∧ (chain2_execution (some "[1, 2]") (.error ()) "req"
        (Json.arr [Json.num 1, Json.num 2])).planStr
      = json_dumps (Json.arr [Json.num 1, Json.num 2])
    ∧ (chain2_execution (some "[1, 2]") (.error ()) "req"
        (Json.arr [Json.num 1, Json.num 2])).prompt
      = (EXECUTION_PROMPT.replace "{user_request}" "req").replace "{plan}"
          (json_dumps (Json.arr [Json.num 1, Json.num 2])) :=
  C10_no_plan_validation "[1, 2]" (Json.arr [Json.num 1, Json.num 2])
    (by simp [json_loads, pVal, pMembers, pElems, pStr, pStrGo, pEsc, pUEsc, pNum,
      jsonWs, numStop, digitsVal, dictInsert, hexVal, escCode, List.dropWhile,
      List.takeWhile, String.data])
    (.error ()) (.error ()) "req" true

/-- Witness exercising `C9_fix_json_output_parses` on strategy 1's output at
the input `1`. -/
theorem C9_fix_json_output_parses_witness :
    fix_json "1" = some "1" ∧ (json_loads "1").isSome = true := by
  have hpre : fixPreprocess (("1").data) = ("1").data := by
    simp [fixPreprocess, pyStrip, dropRightWhile, stripFenceStart, stripFenceEnd,
      endsFence, endsFenceNl, pyWs, btChar, List.dropWhile, String.data]
  have hload : json_loads (String.mk (("1").data)) = some (Json.num 1) := by
    simp [json_loads, pVal, pMembers, pElems, pStr, pStrGo, pEsc, pUEsc, pNum,
      jsonWs, numStop, digitsVal, dictInsert, hexVal, escCode, List.dropWhile,
      List.takeWhile, String.data]
  have hdump : json_dumps (Json.num 1) = "1" := by
    simp [json_dumps, dVal, intChars, natDigits, digitChar]
  have hfix : fix_json "1" = some "1" := by
    rw [fix_json, hpre, strategy1, hload]
    simp only [Option.map_some']
    rw [hdump]
    rfl
  exact ⟨hfix, C9_fix_json_output_parses "1" "1" hfix⟩
